import Mathlib

/-!
# Verification of a compressed prefix tree (radix trie)

Shallow embedding of a left-child/right-sibling compressed prefix tree over
sequences of unsigned integers, with exact-key lookup (`find`), edge-splitting
insertion (`insert`) and a counting insertion variant (`insert_and_count`).

Machine integers (`u32`) are modelled as `Nat`: keys are `List Nat` and the
counting payload is `Nat`.  The counting insertion can abort (an `unwrap` of a
missing value, or an explicit fatal condition); aborting is modelled by
returning `none` from an `Option`-valued function.

The file first sets out all definitions (the embedded data model and
operations, plus the predicates used to state the properties), then the
lemmas and the claim theorems.
-/

set_option maxHeartbeats 1600000

namespace PrefixTree

/-- One node of the trie: an edge label (`key`), an optional payload
(`value`), the first child and the next sibling.  `Option (Node α)` models
`Option<Box<Node<T>>>`. -/
inductive Node (α : Type) : Type where
  | mk (key : List Nat) (value : Option α) (child : Option (Node α))
       (sibling : Option (Node α)) : Node α

namespace Node

/-- The edge label of a node (`node.key`). -/
def key : Node α → List Nat
  | mk k _ _ _ => k

/-- The payload of a node (`node.value`). -/
def value : Node α → Option α
  | mk _ v _ _ => v

/-- The first child of a node (`node.child`). -/
def child : Node α → Option (Node α)
  | mk _ _ c _ => c

/-- The next sibling of a node (`node.sibling`). -/
def sibling : Node α → Option (Node α)
  | mk _ _ _ s => s

/-- `Node::new`: a fresh node holding a whole key and a value, with no child
and no sibling. -/
def new (k : List Nat) (v : α) : Node α := mk k (some v) none none

/-- `Node::common_prefix`: the length of the longest common prefix of the
node's label and another key, computed as in the source by zipping the two
sequences and counting the equal leading pairs. -/
def commonPrefixLength (a b : List Nat) : Nat :=
  ((a.zip b).takeWhile (fun p => p.1 == p.2)).length

/-- `Node::find`: exact-key lookup.  With `p` the common prefix of the node's
label and the key: `p = 0` continues in the sibling; a fully consumed label
either returns this node (key also consumed) or descends into the child with
the key's remainder; a partial match inside the label fails. -/
def find : Node α → List Nat → Option (Node α)
  | mk l v c s, k =>
    let p := commonPrefixLength l k
    if p = 0 then
      match s with
      | some sib => sib.find k
      | none => none
    else if p = l.length then
      if p = k.length then
        some (mk l v c s)
      else
        match c with
        | some ch => ch.find (k.drop p)
        | none => none
    else
      none

/-- `Node::insert`: edge-splitting insertion.  `p = 0` inserts into the
sibling (or appends a fresh sibling); `0 < p < |key|` first splits the label
at `p` when needed (moving label remainder, value and child into a new child)
and then inserts the key's remainder into the child (or attaches it as a
fresh child); otherwise (`p = |key|`) nothing happens. -/
def insert : Node α → List Nat → α → Node α
  | mk l v c s, k, val =>
    let p := commonPrefixLength l k
    if p = 0 then
      match s with
      | some sib => mk l v c (some (sib.insert k val))
      | none => mk l v c (some (new k val))
    else if p < k.length then
      if p < l.length then
        let fresh := mk (l.drop p) v c none
        mk (l.take p) none (some (fresh.insert (k.drop p) val)) s
      else
        match c with
        | some ch => mk l v (some (ch.insert (k.drop p) val)) s
        | none => mk l v (some (new (k.drop p) val)) s
    else
      mk l v c s
  termination_by n k _ => (k.length, sizeOf n)

/-- `Node::insert_and_count` (counting trie, `T = u32`): like `insert` but
every created node starts with count 1, an exact match increments the node's
count, a traversed node's count is updated to `value.unwrap_or(old_count)+1`
after descending, and a split transfers the old count to the new child.  The
two fatal conditions of the source — `self.value.unwrap()` on a valueless
node before a split, and the `"self.value may not be missing"` panic in the
exact-match branch — are modelled by returning `none`. -/
def insert_and_count : Node Nat → List Nat → Option (Node Nat)
  | mk l v c s, k =>
    let p := commonPrefixLength l k
    if p = 0 then
      match s with
      | some sib => (sib.insert_and_count k).map (fun s2 => mk l v c (some s2))
      | none => some (mk l v c (some (new k 1)))
    else if p < k.length then
      if p < l.length then
        match v with
        | none => none
        | some oldCount =>
          let fresh := mk (l.drop p) (some oldCount) c none
          (fresh.insert_and_count (k.drop p)).map
            (fun c2 => mk (l.take p) (some (oldCount + 1)) (some c2) s)
      else
        match c with
        | some ch =>
          (ch.insert_and_count (k.drop p)).map
            (fun c2 => mk l (some (v.getD 1 + 1)) (some c2) s)
        | none =>
          some (mk l (some (v.getD 1 + 1)) (some (new (k.drop p) 1)) s)
    else
      match v with
      | some count => some (mk l (some (count + 1)) c s)
      | none => none
  termination_by n k => (k.length, sizeOf n)

end Node

/-- `Tree`: owner of the optional root node. -/
structure Tree (α : Type) : Type where
  root : Option (Node α)

namespace Tree

/-- `Tree::new`: the empty tree. -/
def new : Tree α := ⟨none⟩

/-- `Tree::find`: lookup from the root. -/
def find (t : Tree α) (k : List Nat) : Option (Node α) :=
  match t.root with
  | some r => r.find k
  | none => none

/-- `Tree::insert`: insert into the root, or create a root node holding the
whole key when the tree is empty. -/
def insert (t : Tree α) (k : List Nat) (v : α) : Tree α :=
  match t.root with
  | some r => ⟨some (r.insert k v)⟩
  | none => ⟨some (Node.new k v)⟩

/-- `Tree::insert_and_count`: counting insertion from the root ("inserting
with auto-value"); a fresh tree gets a root node with count 1. -/
def insert_and_count (t : Tree Nat) (k : List Nat) : Option (Tree Nat) :=
  match t.root with
  | some r => (r.insert_and_count k).map (fun r2 => ⟨some r2⟩)
  | none => some ⟨some (Node.new k 1)⟩

end Tree

/-- Modelled from the spec: `Tree::append` of the persistent variant is
absent from `src/` (spec §4.3; no corresponding source function exists).
The spec states that `append` performs the same traversal and splitting
decisions as the counting insertion of §4.2, but rebuilds every node on the
insertion path as a new node and shares all untouched substructure with the
receiver, returning a brand new tree and leaving the receiver intact.  In
this pure embedding the functional counting insertion already builds exactly
the rebuilt path, shares the untouched subterms, and returns the new tree as
a separate value with the receiver unchanged, so `append` is that
function. -/
def Tree.append (t : Tree Nat) (k : List Nat) : Option (Tree Nat) :=
  t.insert_and_count k

/-- Insert a list of key/value pairs in order (repeated `Tree::insert`). -/
def insertList (t : Tree α) : List (List Nat × α) → Tree α
  | [] => t
  | (k, v) :: rest => insertList (t.insert k v) rest

/-- Run a list of `Tree::insert_and_count` calls in order; `none` as soon as
one call aborts. -/
def countList (t : Tree Nat) : List (List Nat) → Option (Tree Nat)
  | [] => some t
  | k :: rest =>
    match t.insert_and_count k with
    | some t2 => countList t2 rest
    | none => none

/-- One mutating operation on a counting-capable tree: either a plain
`insert` with an explicit value or an `insert_and_count` call. -/
inductive Op (α : Type) : Type where
  | ins (k : List Nat) (v : α) : Op α
  | cnt (k : List Nat) : Op α

/-- The key an operation inserts. -/
def Op.opKey : Op α → List Nat
  | .ins k _ => k
  | .cnt k => k

/-- Apply one operation; `none` models an aborted `insert_and_count`. -/
def applyOp (t : Tree Nat) : Op Nat → Option (Tree Nat)
  | .ins k v => some (t.insert k v)
  | .cnt k => t.insert_and_count k

/-- Apply a list of operations in order. -/
def applyOps (t : Tree Nat) : List (Op Nat) → Option (Tree Nat)
  | [] => some t
  | op :: rest =>
    match applyOp t op with
    | some t2 => applyOps t2 rest
    | none => none

/-- The labels of the nodes along one sibling chain. -/
def chainLabels : Option (Node α) → List (List Nat)
  | none => []
  | some (.mk l _ _ s) => l :: chainLabels s

/-- The accumulated label paths of all nodes of a forest; `acc` is the
concatenation of the labels from the root down to the current chain. -/
def chainPaths (acc : List Nat) : Option (Node α) → List (List Nat)
  | none => []
  | some (.mk l _ c s) =>
      (acc ++ l) :: (chainPaths (acc ++ l) c ++ chainPaths acc s)

/-- Every node of the forest carries a non-empty label. -/
def labelsNonempty : Option (Node α) → Prop
  | none => True
  | some (.mk l _ c s) => l ≠ [] ∧ labelsNonempty c ∧ labelsNonempty s

/-- In every sibling chain of the forest, the label of each node has no
nonzero common prefix with the label of any later sibling (pairwise
prefix-disjoint sibling chains). -/
def chainsDisjoint : Option (Node α) → Prop
  | none => True
  | some (.mk l _ c s) =>
      (∀ l2 ∈ chainLabels s, Node.commonPrefixLength l l2 = 0) ∧
      chainsDisjoint c ∧ chainsDisjoint s

/-- Every node of the forest carries a value. -/
def valuesPresent : Option (Node α) → Prop
  | none => True
  | some (.mk _ v c s) => v.isSome ∧ valuesPresent c ∧ valuesPresent s

/-- The traversal condition under which `insert` silently drops its key:
walking the forest with the same branch structure as `insert`, the remaining
key is exhausted by a positive common prefix (`0 < p = |remaining key|`),
the branch in which `insert` changes nothing. -/
def dropsKey : Option (Node α) → List Nat → Bool
  | none, _ => false
  | some (.mk l _ c s), k =>
    let p := Node.commonPrefixLength l k
    if p = 0 then dropsKey s k
    else if p < k.length then
      (if p = l.length then dropsKey c (k.drop p) else false)
    else true
  termination_by t k => (k.length, sizeOf t)
  decreasing_by
  · apply Prod.Lex.right
    simp
    omega
  · apply Prod.Lex.left
    simp
    omega

/-- The traversal condition under which an inserted key terminates strictly
inside an existing node's label: the walk reaches a node whose label's
common prefix with the remaining key equals the remaining key's length but
falls short of the label's length. -/
def endsInside : Option (Node α) → List Nat → Bool
  | none, _ => false
  | some (.mk l _ c s), k =>
    let p := Node.commonPrefixLength l k
    if p = 0 then endsInside s k
    else if p < k.length then
      (if p = l.length then endsInside c (k.drop p) else false)
    else decide (p < l.length)
  termination_by t k => (k.length, sizeOf t)
  decreasing_by
  · apply Prod.Lex.right
    simp
    omega
  · apply Prod.Lex.left
    simp
    omega

/-- Every label in a sibling chain has zero common prefix with `K`. -/
def unrelatedChain (K : List Nat) (t : Option (Node α)) : Prop :=
  ∀ l2 ∈ chainLabels t, Node.commonPrefixLength l2 K = 0

/-- The root sibling chain contains a node with label exactly `K` and value
`V`, preceded only by labels with no common prefix with `K`. -/
def foundValue (K : List Nat) (V : α) : Option (Node α) → Prop
  | none => False
  | some (.mk l v _ s) =>
      (Node.commonPrefixLength l K = 0 ∧ foundValue K V s) ∨
      (l = K ∧ v = some V)

/-- Counting-trie invariant for one key `K`: the chain holds `n` insertions
of `K`, either (`n = 0`) as a chain of labels unrelated to `K`, or as a node
with label exactly `K` and count `n` somewhere in the chain, with unrelated
labels before and after it. -/
def countedAt (K : List Nat) (n : Nat) : Option (Node Nat) → Prop
  | none => n = 0
  | some (.mk l v _ s) =>
      (Node.commonPrefixLength l K = 0 ∧ countedAt K n s) ∨
      (l = K ∧ v = some n ∧ unrelatedChain K s ∧ n ≠ 0)

/-- The number of inserted sequences having `P` as a prefix (or equal to
`P`): the reference count of the counting-rule claim. -/
def specCount (ks : List (List Nat)) (P : List Nat) : Nat :=
  (ks.filter (fun S => P.isPrefixOf S)).length

/-- Every node's count equals the number of inserted sequences extending its
accumulated label path: the conclusion of the counting-rule claim. -/
def countsCorrect (ks : List (List Nat)) (acc : List Nat) :
    Option (Node Nat) → Prop
  | none => True
  | some (.mk l v c s) =>
      v = some (specCount ks (acc ++ l)) ∧
      countsCorrect ks (acc ++ l) c ∧ countsCorrect ks acc s

/-- Chain completeness: every inserted sequence that strictly extends `acc`
engages the chain, i.e. shares a nonzero prefix with some chain label. -/
def chainComplete (ks : List (List Nat)) (acc : List Nat)
    (t : Option (Node Nat)) : Prop :=
  ∀ S ∈ ks, acc <+: S → S ≠ acc →
    ∃ l2 ∈ chainLabels t, Node.commonPrefixLength l2 (S.drop acc.length) ≠ 0

/-- Full counting invariant of a forest at accumulated path `acc` against
the list `ks` of sequences inserted so far: non-empty labels, counts equal
to `specCount` of the node's path, no inserted sequence stops or diverges
strictly inside a label, child chains are complete, sibling chains are
prefix-disjoint. -/
def countInv (ks : List (List Nat)) (acc : List Nat) :
    Option (Node Nat) → Prop
  | none => True
  | some (.mk l v c s) =>
      l ≠ [] ∧
      v = some (specCount ks (acc ++ l)) ∧
      (∀ q, 0 < q → q < l.length →
        specCount ks (acc ++ l.take q) = specCount ks (acc ++ l)) ∧
      chainComplete ks (acc ++ l) c ∧
      countInv ks (acc ++ l) c ∧
      countInv ks acc s ∧
      (∀ l2 ∈ chainLabels s, Node.commonPrefixLength l l2 = 0)

/-- A run of `insert_and_count` calls is well behaved when every key is
non-empty and never terminates strictly inside an existing node's label at
the moment it is inserted. -/
def goodRun : Tree Nat → List (List Nat) → Bool
  | _, [] => true
  | t, k :: rest =>
    !k.isEmpty && !endsInside t.root k &&
      (match t.insert_and_count k with
       | some t2 => goodRun t2 rest
       | none => false)

/-! ## Lemmas about the data model -/

namespace Node

@[simp] theorem key_mk (k : List Nat) (v : Option α) (c s : Option (Node α)) :
    (mk k v c s).key = k := rfl

@[simp] theorem value_mk (k : List Nat) (v : Option α) (c s : Option (Node α)) :
    (mk k v c s).value = v := rfl

@[simp] theorem child_mk (k : List Nat) (v : Option α) (c s : Option (Node α)) :
    (mk k v c s).child = c := rfl

@[simp] theorem sibling_mk (k : List Nat) (v : Option α) (c s : Option (Node α)) :
    (mk k v c s).sibling = s := rfl

@[simp] theorem commonPrefixLength_nil_left (b : List Nat) :
    commonPrefixLength [] b = 0 := rfl

@[simp] theorem commonPrefixLength_nil_right (a : List Nat) :
    commonPrefixLength a [] = 0 := by
  cases a <;> rfl

@[simp] theorem commonPrefixLength_cons (a b : Nat) (as bs : List Nat) :
    commonPrefixLength (a :: as) (b :: bs) =
      if a = b then commonPrefixLength as bs + 1 else 0 := by
  by_cases h : a = b <;>
    simp [commonPrefixLength, List.zip_cons_cons, List.takeWhile_cons, h]

theorem commonPrefixLength_le_left (a b : List Nat) :
    commonPrefixLength a b ≤ a.length := by
  induction a generalizing b with
  | nil => simp
  | cons x as ih =>
    cases b with
    | nil => simp
    | cons y bs =>
      by_cases h : x = y <;> simp [h]
      exact ih bs

theorem commonPrefixLength_le_right (a b : List Nat) :
    commonPrefixLength a b ≤ b.length := by
  induction a generalizing b with
  | nil => simp
  | cons x as ih =>
    cases b with
    | nil => simp
    | cons y bs =>
      by_cases h : x = y <;> simp [h]
      exact ih bs

theorem commonPrefixLength_comm (a b : List Nat) :
    commonPrefixLength a b = commonPrefixLength b a := by
  induction a generalizing b with
  | nil => simp
  | cons x as ih =>
    cases b with
    | nil => simp
    | cons y bs =>
      by_cases h : x = y
      · subst h
        simp [ih bs]
      · simp [h, Ne.symm h]

@[simp] theorem commonPrefixLength_self (a : List Nat) :
    commonPrefixLength a a = a.length := by
  induction a with
  | nil => simp
  | cons x as ih => simp [ih]

/-- `commonPrefixLength a b = |a|` exactly when `a` is a prefix of `b`. -/
theorem commonPrefixLength_eq_left_iff (a b : List Nat) :
    commonPrefixLength a b = a.length ↔ a <+: b := by
  induction a generalizing b with
  | nil => simp
  | cons x as ih =>
    cases b with
    | nil => simp
    | cons y bs =>
      by_cases h : x = y
      · subst h
        simp [List.cons_prefix_cons, ← ih bs]
      · simp [h, List.cons_prefix_cons]

theorem commonPrefixLength_eq_right_iff (a b : List Nat) :
    commonPrefixLength a b = b.length ↔ b <+: a := by
  rw [commonPrefixLength_comm]
  exact commonPrefixLength_eq_left_iff b a

/-- A positive common prefix means the two lists start with the same
element. -/
theorem commonPrefixLength_ne_zero_iff (a b : List Nat) :
    commonPrefixLength a b ≠ 0 ↔
      ∃ x as bs, a = x :: as ∧ b = x :: bs := by
  cases a with
  | nil => simp
  | cons x as =>
    cases b with
    | nil => simp
    | cons y bs =>
      by_cases h : x = y <;> simp [h]
      intro h2
      exact absurd h2.symm h

/-- Two lists sharing a head with a common list share a head with each
other: engagement transfers along nonzero common prefixes. -/
theorem commonPrefixLength_trans_ne_zero {a b c : List Nat}
    (hab : commonPrefixLength a b ≠ 0) (hac : commonPrefixLength a c ≠ 0) :
    commonPrefixLength b c ≠ 0 := by
  rw [commonPrefixLength_ne_zero_iff] at hab hac ⊢
  obtain ⟨x, as, bs, ha, hb⟩ := hab
  obtain ⟨y, as2, cs, ha2, hc⟩ := hac
  rw [ha] at ha2
  exact ⟨x, bs, cs, hb, by rw [hc, (List.cons.injEq .. ).mp ha2 |>.1]⟩

/-- Truncating the left argument caps the common prefix. -/
theorem commonPrefixLength_take (p : Nat) (a b : List Nat) :
    commonPrefixLength (a.take p) b = min p (commonPrefixLength a b) := by
  induction a generalizing b p with
  | nil => simp
  | cons x as ih =>
    cases b with
    | nil => simp
    | cons y bs =>
      cases p with
      | zero => simp
      | succ q =>
        by_cases h : x = y <;> simp [h, ih]
        omega

/-- Truncating the right argument caps the common prefix. -/
theorem commonPrefixLength_take_right (p : Nat) (a b : List Nat) :
    commonPrefixLength a (b.take p) = min p (commonPrefixLength a b) := by
  rw [commonPrefixLength_comm, commonPrefixLength_take, commonPrefixLength_comm]

/-- A prefix of `a` has a common prefix with `b` no longer than `a` has. -/
theorem commonPrefixLength_of_prefix_le {a2 a : List Nat} (b : List Nat)
    (h : a2 <+: a) :
    commonPrefixLength a2 b ≤ commonPrefixLength a b := by
  obtain ⟨t, rfl⟩ := h
  induction a2 generalizing b with
  | nil => simp
  | cons x as ih =>
    cases b with
    | nil => simp
    | cons y bs =>
      by_cases hx : x = y <;> simp [hx]
      exact ih bs

/-- The two lists agree on their common prefix. -/
theorem take_commonPrefixLength_eq (a b : List Nat) :
    a.take (commonPrefixLength a b) = b.take (commonPrefixLength a b) := by
  induction a generalizing b with
  | nil => simp
  | cons x as ih =>
    cases b with
    | nil => simp
    | cons y bs =>
      by_cases h : x = y <;> simp [h, ih bs]

/-- Beyond the common prefix the remainders immediately diverge. -/
theorem commonPrefixLength_drop (a b : List Nat) :
    commonPrefixLength (a.drop (commonPrefixLength a b))
      (b.drop (commonPrefixLength a b)) = 0 := by
  induction a generalizing b with
  | nil => simp
  | cons x as ih =>
    cases b with
    | nil => simp
    | cons y bs =>
      by_cases h : x = y <;> simp [h, ih bs]

/-- Two non-empty prefixes of one list share its head, hence have a nonzero
common prefix with each other. -/
theorem commonPrefixLength_ne_zero_of_common {a b z : List Nat}
    (ha : a <+: z) (hb : b <+: z) (ha2 : a ≠ []) (hb2 : b ≠ []) :
    commonPrefixLength a b ≠ 0 := by
  obtain ⟨u, rfl⟩ := ha
  cases a with
  | nil => exact absurd rfl ha2
  | cons x as =>
    cases b with
    | nil => exact absurd rfl hb2
    | cons y bs =>
      rw [List.cons_append, List.cons_prefix_cons] at hb
      simp [hb.1]

end Node

/-! ## Unfolding lemmas for the structural predicates -/

@[simp] theorem chainLabels_none : chainLabels (none : Option (Node α)) = [] := by
  simp [chainLabels]

@[simp] theorem chainLabels_some (l : List Nat) (v : Option α)
    (c s : Option (Node α)) :
    chainLabels (some (.mk l v c s)) = l :: chainLabels s := by
  simp [chainLabels]

@[simp] theorem chainPaths_none (acc : List Nat) :
    chainPaths acc (none : Option (Node α)) = [] := by
  simp [chainPaths]

@[simp] theorem chainPaths_some (acc l : List Nat) (v : Option α)
    (c s : Option (Node α)) :
    chainPaths acc (some (.mk l v c s)) =
      (acc ++ l) :: (chainPaths (acc ++ l) c ++ chainPaths acc s) := by
  simp [chainPaths]

@[simp] theorem labelsNonempty_none : labelsNonempty (none : Option (Node α)) := by
  simp [labelsNonempty]

@[simp] theorem labelsNonempty_some (l : List Nat) (v : Option α)
    (c s : Option (Node α)) :
    labelsNonempty (some (.mk l v c s)) ↔
      l ≠ [] ∧ labelsNonempty c ∧ labelsNonempty s := by
  rw [labelsNonempty]

@[simp] theorem chainsDisjoint_none : chainsDisjoint (none : Option (Node α)) := by
  simp [chainsDisjoint]

@[simp] theorem chainsDisjoint_some (l : List Nat) (v : Option α)
    (c s : Option (Node α)) :
    chainsDisjoint (some (.mk l v c s)) ↔
      (∀ l2 ∈ chainLabels s, Node.commonPrefixLength l l2 = 0) ∧
      chainsDisjoint c ∧ chainsDisjoint s := by
  rw [chainsDisjoint]

@[simp] theorem valuesPresent_none : valuesPresent (none : Option (Node α)) := by
  simp [valuesPresent]

@[simp] theorem valuesPresent_some (l : List Nat) (v : Option α)
    (c s : Option (Node α)) :
    valuesPresent (some (.mk l v c s)) ↔
      v.isSome ∧ valuesPresent c ∧ valuesPresent s := by
  rw [valuesPresent]

@[simp] theorem foundValue_none (K : List Nat) (V : α) :
    ¬ foundValue K V (none : Option (Node α)) := by
  simp [foundValue]

@[simp] theorem foundValue_some (K : List Nat) (V : α) (l : List Nat)
    (v : Option α) (c s : Option (Node α)) :
    foundValue K V (some (.mk l v c s)) ↔
      (Node.commonPrefixLength l K = 0 ∧ foundValue K V s) ∨
      (l = K ∧ v = some V) := by
  rw [foundValue]

@[simp] theorem countedAt_none (K : List Nat) (n : Nat) :
    countedAt K n (none : Option (Node Nat)) ↔ n = 0 := by
  rw [countedAt]

@[simp] theorem countedAt_some (K : List Nat) (n : Nat) (l : List Nat)
    (v : Option Nat) (c s : Option (Node Nat)) :
    countedAt K n (some (.mk l v c s)) ↔
      (Node.commonPrefixLength l K = 0 ∧ countedAt K n s) ∨
      (l = K ∧ v = some n ∧ unrelatedChain K s ∧ n ≠ 0) := by
  rw [countedAt]

@[simp] theorem countsCorrect_none (ks : List (List Nat)) (acc : List Nat) :
    countsCorrect ks acc (none : Option (Node Nat)) := by
  simp [countsCorrect]

@[simp] theorem countsCorrect_some (ks : List (List Nat)) (acc l : List Nat)
    (v : Option Nat) (c s : Option (Node Nat)) :
    countsCorrect ks acc (some (.mk l v c s)) ↔
      v = some (specCount ks (acc ++ l)) ∧
      countsCorrect ks (acc ++ l) c ∧ countsCorrect ks acc s := by
  rw [countsCorrect]

@[simp] theorem countInv_none (ks : List (List Nat)) (acc : List Nat) :
    countInv ks acc (none : Option (Node Nat)) := by
  simp [countInv]

theorem countInv_some (ks : List (List Nat)) (acc l : List Nat)
    (v : Option Nat) (c s : Option (Node Nat)) :
    countInv ks acc (some (.mk l v c s)) ↔
      l ≠ [] ∧
      v = some (specCount ks (acc ++ l)) ∧
      (∀ q, 0 < q → q < l.length →
        specCount ks (acc ++ l.take q) = specCount ks (acc ++ l)) ∧
      chainComplete ks (acc ++ l) c ∧
      countInv ks (acc ++ l) c ∧
      countInv ks acc s ∧
      (∀ l2 ∈ chainLabels s, Node.commonPrefixLength l l2 = 0) := by
  rw [countInv]

@[simp] theorem unrelatedChain_none (K : List Nat) :
    unrelatedChain K (none : Option (Node α)) := by
  simp [unrelatedChain]

theorem unrelatedChain_some (K l : List Nat) (v : Option α)
    (c s : Option (Node α)) :
    unrelatedChain K (some (.mk l v c s)) ↔
      Node.commonPrefixLength l K = 0 ∧ unrelatedChain K s := by
  simp [unrelatedChain]

/-! ## C7: split correctness -/

/-- C7: starting from the empty tree, inserting key `[3,137,2]` with some
value `V1` and then key `[3,137,99,22]` with some value `V2` via `insert`
yields a root node with label `[3,137]` and no value, whose two children,
linked as immediate siblings, have labels `[2]` (carrying `V1`) and
`[99,22]` (carrying `V2`). -/
theorem C7_split_correctness (α : Type) (V1 V2 : α) :
    (Tree.new.insert [3,137,2] V1).insert [3,137,99,22] V2 =
      ⟨some (.mk [3,137] none
        (some (.mk [2] (some V1) none (some (.mk [99,22] (some V2) none none))))
        none)⟩ := by
  simp [Tree.insert, Tree.new, Node.insert, Node.new]

/-! ## C10: insert never overwrites and silently drops exhausted keys -/

theorem dropsKey_insert_eq (n : Node α) (k : List Nat) (v : α) :
    dropsKey (some n) k = true → n.insert k v = n := by
  induction n, k, v using Node.insert.induct with
  | case1 l v c k val p h0 sib ih =>
    intro h
    have hp : Node.commonPrefixLength l k = 0 := h0
    rw [dropsKey] at h
    simp only [hp, if_pos rfl] at h
    rw [Node.insert.eq_def]
    simp [hp, ih h]
  | case2 l v c k val p h0 =>
    intro h
    have hp : Node.commonPrefixLength l k = 0 := h0
    rw [dropsKey] at h
    simp [hp, dropsKey] at h
  | case3 l v c s k val p h0 hk hl fresh ih =>
    intro h
    have hp : ¬ Node.commonPrefixLength l k = 0 := h0
    have hk2 : Node.commonPrefixLength l k < k.length := hk
    have hl2 : Node.commonPrefixLength l k < l.length := hl
    rw [dropsKey] at h
    simp [hp, hk2, Nat.ne_of_lt hl2] at h
  | case4 l v s k val p h0 hk hl sib ih =>
    intro h
    have hp : ¬ Node.commonPrefixLength l k = 0 := h0
    have hk2 : Node.commonPrefixLength l k < k.length := hk
    have hl2 : ¬ Node.commonPrefixLength l k < l.length := hl
    have hpl : Node.commonPrefixLength l k = l.length :=
      Nat.le_antisymm (Node.commonPrefixLength_le_left l k) (Nat.not_lt.mp hl2)
    rw [dropsKey] at h
    simp only [if_neg hp, if_pos hk2, if_pos hpl] at h
    rw [Node.insert.eq_def]
    simp [hp, hk2, hl2, ih h]
  | case5 l v s k val p h0 hk hl =>
    intro h
    have hp : ¬ Node.commonPrefixLength l k = 0 := h0
    have hk2 : Node.commonPrefixLength l k < k.length := hk
    have hl2 : ¬ Node.commonPrefixLength l k < l.length := hl
    have hpl : Node.commonPrefixLength l k = l.length :=
      Nat.le_antisymm (Node.commonPrefixLength_le_left l k) (Nat.not_lt.mp hl2)
    rw [dropsKey] at h
    simp only [if_neg hp, if_pos hk2, if_pos hpl] at h
    simp [dropsKey] at h
  | case6 l v c s k val p h0 hk =>
    intro h
    have hp : ¬ Node.commonPrefixLength l k = 0 := h0
    have hk2 : ¬ Node.commonPrefixLength l k < k.length := hk
    rw [Node.insert.eq_def]
    simp [hp, hk2]

/-- C10 (implicit): for every tree and every key whose traversal reaches a
node at which the common prefix of the key's remaining suffix with the
node's label equals the suffix's length (in particular when the key is
already stored exactly, or is a strict prefix ending inside a label),
`insert` leaves the entire tree unchanged: no node is added, no label is
changed, and no stored value is replaced. -/
theorem C10_insert_drops_exhausted_keys (t : Tree α) (k : List Nat) (v : α)
    (h : dropsKey t.root k = true) : t.insert k v = t := by
  obtain ⟨r⟩ := t
  cases r with
  | none => simp [dropsKey] at h
  | some n => simp [Tree.insert, dropsKey_insert_eq n k v h]

/-- Witness for C10 at a concrete tree: `[3]` exhausts inside the stored
label `[3,137]`, and inserting it changes nothing. -/
theorem C10_witness :
    dropsKey (Tree.mk (some (.mk [3,137] (some 5) none none)) : Tree Nat).root
      [3] = true ∧
    Tree.insert (Tree.mk (some (.mk [3,137] (some 5) none none))) [3] 9 =
      Tree.mk (some (.mk [3,137] (some 5) none none)) :=
  ⟨by simp [dropsKey],
   C10_insert_drops_exhausted_keys _ _ _ (by simp [dropsKey])⟩

/-! ## C3: lookup exactness -/

/-- A successful lookup always lands on a node whose accumulated label path
is exactly the key. -/
theorem find_mem_chainPaths (n : Node α) (k : List Nat) :
    ∀ acc (m : Node α), n.find k = some m →
      (acc ++ k) ∈ chainPaths acc (some n) := by
  induction n, k using Node.find.induct with
  | case1 l v c k p h0 sib ih =>
    intro acc m h
    have hp : Node.commonPrefixLength l k = 0 := h0
    rw [Node.find.eq_def] at h
    simp only [hp, if_pos rfl] at h
    simp [ih acc m h]
  | case2 l v c k p h0 =>
    intro acc m h
    have hp : Node.commonPrefixLength l k = 0 := h0
    rw [Node.find.eq_def] at h
    simp [hp] at h
  | case3 l v c s k p h0 hl hk =>
    intro acc m h
    have hl2 : Node.commonPrefixLength l k = l.length := hl
    have hk2 : Node.commonPrefixLength l k = k.length := hk
    have h1 : l <+: k := (Node.commonPrefixLength_eq_left_iff l k).mp hl2
    have h2 : l = k := h1.eq_of_length (by rw [← hl2, hk2])
    simp [h2]
  | case4 l v s k p h0 hl hk sib ih =>
    intro acc m h
    have hp : ¬ Node.commonPrefixLength l k = 0 := h0
    have hl2 : Node.commonPrefixLength l k = l.length := hl
    have hk2 : ¬ Node.commonPrefixLength l k = k.length := hk
    rw [Node.find.eq_def] at h
    simp only [if_neg hp, if_pos hl2, if_neg hk2] at h
    have h2 := ih (acc ++ l) m h
    have h1 : l <+: k := (Node.commonPrefixLength_eq_left_iff l k).mp hl2
    have h3 : acc ++ k = (acc ++ l) ++ k.drop (Node.commonPrefixLength l k) := by
      obtain ⟨u, rfl⟩ := h1
      rw [hl2]
      simp [List.drop_left]
    rw [h3]
    simp only [chainPaths_some, List.mem_cons, List.mem_append]
    exact Or.inr (Or.inl h2)
  | case5 l v s k p h0 hl hk =>
    intro acc m h
    have hp : ¬ Node.commonPrefixLength l k = 0 := h0
    have hl2 : Node.commonPrefixLength l k = l.length := hl
    have hk2 : ¬ Node.commonPrefixLength l k = k.length := hk
    rw [Node.find.eq_def] at h
    simp only [if_neg hp, if_pos hl2, if_neg hk2] at h
    simp at h
  | case6 l v c s k p h0 hl =>
    intro acc m h
    have hp : ¬ Node.commonPrefixLength l k = 0 := h0
    have hl2 : ¬ Node.commonPrefixLength l k = l.length := hl
    rw [Node.find.eq_def] at h
    simp only [if_neg hp, if_neg hl2] at h
    simp at h

/-- C3 (amended): `find` returns `NotFound` on every key that is not the
accumulated label path of some node of the tree; in particular, a key that
is a strict prefix of a stored path ending strictly inside a node's label,
or a key extending past the deepest stored terminal, returns `NotFound`. -/
theorem C3_lookup_exactness (t : Tree α) (k : List Nat)
    (h : k ∉ chainPaths [] t.root) : t.find k = none := by
  obtain ⟨r⟩ := t
  cases r with
  | none => simp [Tree.find]
  | some n =>
    simp only [Tree.find]
    cases hf : n.find k with
    | none => rfl
    | some m =>
      exact absurd (by simpa using find_mem_chainPaths n k [] m hf) h

/-- Witness for C3: in a tree storing only the path `[3,137]`, the strict
prefix `[3]` (ending inside the label) is not a node path and `find` fails
on it. -/
theorem C3_witness :
    ([3] ∉ chainPaths []
      (Tree.mk (some (.mk [3,137] (some 0) none none)) : Tree Nat).root) ∧
    (Tree.mk (some (.mk [3,137] (some (0:Nat)) none none))).find [3] = none :=
  ⟨by simp [chainPaths], C3_lookup_exactness _ _ (by simp [chainPaths])⟩

/-- Counterexample for C3 as stated: after inserting `[3,137,2]` and
`[3,137,99]`, the key `[3,137]` is a strict prefix of the stored path
`[3,137,2]`, yet `find` does not return `NotFound`: it returns the
(valueless) branch node created by the split. -/
theorem C3_counterexample :
    (insertList Tree.new [([3,137,2], 0), ([3,137,99], 1)]).find [3,137] =
      some (.mk [3,137] none
        (some (.mk [2] (some 0) none (some (.mk [99] (some 1) none none))))
        none) := by
  simp [insertList, Tree.insert, Tree.new, Tree.find, Node.insert, Node.new,
    Node.find]

/-! ## C8: the counting insertion never aborts on counting-only trees -/

/-- On a forest whose nodes all carry values, `insert_and_count` never
reaches either fatal branch and preserves the all-values property. -/
theorem insert_and_count_isSome_of_valuesPresent (n : Node Nat) (k : List Nat) :
    valuesPresent (some n) →
    ∃ n2, n.insert_and_count k = some n2 ∧ valuesPresent (some n2) := by
  induction n, k using Node.insert_and_count.induct with
  | case1 l v c k p h0 sib ih =>
    intro h
    have hp : Node.commonPrefixLength l k = 0 := h0
    rw [valuesPresent_some] at h
    obtain ⟨n2, h1, h2⟩ := ih h.2.2
    refine ⟨.mk l v c (some n2), ?_, ?_⟩
    · rw [Node.insert_and_count.eq_def]
      simp [hp, h1]
    · simp [h.1, h.2.1, h2]
  | case2 l v c k p h0 =>
    intro h
    have hp : Node.commonPrefixLength l k = 0 := h0
    rw [valuesPresent_some] at h
    refine ⟨.mk l v c (some (.new k 1)), ?_, ?_⟩
    · rw [Node.insert_and_count.eq_def]
      simp [hp]
    · simp [h.1, h.2.1, Node.new]
  | case3 l c s k p h0 hk hl =>
    intro h
    rw [valuesPresent_some] at h
    simp at h
  | case4 l c s k p h0 hk hl oldCount fresh ih =>
    intro h
    have hp : ¬ Node.commonPrefixLength l k = 0 := h0
    have hk2 : Node.commonPrefixLength l k < k.length := hk
    have hl2 : Node.commonPrefixLength l k < l.length := hl
    rw [valuesPresent_some] at h
    have hfresh : valuesPresent (some (Node.mk
        (l.drop (Node.commonPrefixLength l k)) (some oldCount) c none)) := by
      simp [h.2.1]
    obtain ⟨n2, h1, h2⟩ := ih hfresh
    refine ⟨.mk (l.take (Node.commonPrefixLength l k)) (some (oldCount + 1))
      (some n2) s, ?_, ?_⟩
    · rw [Node.insert_and_count.eq_def]
      simp only [if_neg hp, if_pos hk2, if_pos hl2]
      simp [h1]
    · simp [h2, h.2.2]
  | case5 l v s k p h0 hk hl sib ih =>
    intro h
    have hp : ¬ Node.commonPrefixLength l k = 0 := h0
    have hk2 : Node.commonPrefixLength l k < k.length := hk
    have hl2 : ¬ Node.commonPrefixLength l k < l.length := hl
    rw [valuesPresent_some] at h
    obtain ⟨n2, h1, h2⟩ := ih h.2.1
    refine ⟨.mk l (some (v.getD 1 + 1)) (some n2) s, ?_, ?_⟩
    · rw [Node.insert_and_count.eq_def]
      simp [hp, hk2, hl2, h1]
    · simp [h2, h.2.2]
  | case6 l v s k p h0 hk hl =>
    intro h
    have hp : ¬ Node.commonPrefixLength l k = 0 := h0
    have hk2 : Node.commonPrefixLength l k < k.length := hk
    have hl2 : ¬ Node.commonPrefixLength l k < l.length := hl
    rw [valuesPresent_some] at h
    refine ⟨.mk l (some (v.getD 1 + 1)) (some (.new (k.drop
      (Node.commonPrefixLength l k)) 1)) s, ?_, ?_⟩
    · rw [Node.insert_and_count.eq_def]
      simp [hp, hk2, hl2]
    · simp [h.2.2, Node.new]
  | case7 l c s k p h0 hk count =>
    intro h
    have hp : ¬ Node.commonPrefixLength l k = 0 := h0
    have hk2 : ¬ Node.commonPrefixLength l k < k.length := hk
    rw [valuesPresent_some] at h
    refine ⟨.mk l (some (count + 1)) c s, ?_, ?_⟩
    · rw [Node.insert_and_count.eq_def]
      simp [hp, hk2]
    · simp [h.2.1, h.2.2]
  | case8 l c s k p h0 hk =>
    intro h
    rw [valuesPresent_some] at h
    simp at h

/-- Tree-level: `insert_and_count` succeeds on trees whose nodes all carry
values, and preserves that property. -/
theorem tree_insert_and_count_isSome (t : Tree Nat) (k : List Nat)
    (h : valuesPresent t.root) :
    ∃ t2, t.insert_and_count k = some t2 ∧ valuesPresent t2.root := by
  obtain ⟨r⟩ := t
  cases r with
  | none =>
    exact ⟨⟨some (.new k 1)⟩, by simp [Tree.insert_and_count],
      by simp [Node.new]⟩
  | some n =>
    obtain ⟨n2, h1, h2⟩ := insert_and_count_isSome_of_valuesPresent n k h
    exact ⟨⟨some n2⟩, by simp [Tree.insert_and_count, h1], h2⟩

theorem countList_isSome (ks : List (List Nat)) :
    ∀ t : Tree Nat, valuesPresent t.root →
      ∃ t2, countList t ks = some t2 ∧ valuesPresent t2.root := by
  induction ks with
  | nil => exact fun t h => ⟨t, rfl, h⟩
  | cons k rest ih =>
    intro t h
    obtain ⟨t2, h1, h2⟩ := tree_insert_and_count_isSome t k h
    obtain ⟨t3, h3, h4⟩ := ih t2 h2
    exact ⟨t3, by simp [countList, h1, h3], h4⟩

/-- C8: for every sequence of `insertAndCount` calls starting from a fresh
empty tree, the counting insertion never reaches a node lacking a value in
the branches that require one; the fatal `"value may not be missing"`
condition and the value `unwrap` before a split are unreachable, so no
`insertAndCount` call aborts. -/
theorem C8_no_invariant_violation (ks : List (List Nat)) :
    (countList Tree.new ks).isSome = true := by
  obtain ⟨t2, h, _⟩ := countList_isSome ks Tree.new (by simp [Tree.new])
  simp [h]

/-! ## C5: non-empty labels -/

/-- Inserting a non-empty key preserves non-empty labels. -/
theorem insert_labelsNonempty (n : Node α) (k : List Nat) (v : α) :
    k ≠ [] → labelsNonempty (some n) → labelsNonempty (some (n.insert k v)) := by
  induction n, k, v using Node.insert.induct with
  | case1 l v c k val p h0 sib ih =>
    intro hk h
    have hp : Node.commonPrefixLength l k = 0 := h0
    rw [labelsNonempty_some] at h
    rw [Node.insert.eq_def]
    simp [hp, h.1, h.2.1, ih hk h.2.2]
  | case2 l v c k val p h0 =>
    intro hk h
    have hp : Node.commonPrefixLength l k = 0 := h0
    rw [labelsNonempty_some] at h
    rw [Node.insert.eq_def]
    simp [hp, h.1, h.2.1, Node.new, hk]
  | case3 l v c s k val p h0 hk hl fresh ih =>
    intro hke h
    have hp : ¬ Node.commonPrefixLength l k = 0 := h0
    have hk2 : Node.commonPrefixLength l k < k.length := hk
    have hl2 : Node.commonPrefixLength l k < l.length := hl
    rw [labelsNonempty_some] at h
    have hfresh : labelsNonempty (some (Node.mk
        (l.drop (Node.commonPrefixLength l k)) v c none)) := by
      refine (labelsNonempty_some ..).mpr ⟨?_, h.2.1, labelsNonempty_none⟩
      intro hemp
      have := congrArg List.length hemp
      simp at this
      omega
    have hdk : k.drop (Node.commonPrefixLength l k) ≠ [] := by
      intro hemp
      have := congrArg List.length hemp
      simp at this
      omega
    have htk : l.take (Node.commonPrefixLength l k) ≠ [] := by
      intro hemp
      have h5 := congrArg List.length hemp
      rw [List.length_take] at h5
      simp only [List.length_nil] at h5
      have hlen : 0 < l.length := List.length_pos.mpr h.1
      omega
    rw [Node.insert.eq_def]
    simp [hp, hk2, hl2, htk, h.2.2, ih hdk hfresh]
  | case4 l v s k val p h0 hk hl sib ih =>
    intro hke h
    have hp : ¬ Node.commonPrefixLength l k = 0 := h0
    have hk2 : Node.commonPrefixLength l k < k.length := hk
    have hl2 : ¬ Node.commonPrefixLength l k < l.length := hl
    rw [labelsNonempty_some] at h
    have hdk : k.drop (Node.commonPrefixLength l k) ≠ [] := by
      intro hemp
      have := congrArg List.length hemp
      simp at this
      omega
    rw [Node.insert.eq_def]
    simp [hp, hk2, hl2, h.1, h.2.2, ih hdk h.2.1]
  | case5 l v s k val p h0 hk hl =>
    intro hke h
    have hp : ¬ Node.commonPrefixLength l k = 0 := h0
    have hk2 : Node.commonPrefixLength l k < k.length := hk
    have hl2 : ¬ Node.commonPrefixLength l k < l.length := hl
    rw [labelsNonempty_some] at h
    have hdk : k.drop (Node.commonPrefixLength l k) ≠ [] := by
      intro hemp
      have := congrArg List.length hemp
      simp at this
      omega
    rw [Node.insert.eq_def]
    simp [hp, hk2, hl2, h.1, h.2.2, Node.new, hdk]
  | case6 l v c s k val p h0 hk =>
    intro hke h
    have hp : ¬ Node.commonPrefixLength l k = 0 := h0
    have hk2 : ¬ Node.commonPrefixLength l k < k.length := hk
    rw [Node.insert.eq_def]
    simp only [if_neg hp, if_neg hk2]
    exact h

/-- The counting insertion of a non-empty key preserves non-empty labels. -/
theorem insert_and_count_labelsNonempty (n : Node Nat) (k : List Nat) :
    k ≠ [] → labelsNonempty (some n) →
    ∀ n2, n.insert_and_count k = some n2 → labelsNonempty (some n2) := by
  induction n, k using Node.insert_and_count.induct with
  | case1 l v c k p h0 sib ih =>
    intro hk h n2 he
    have hp : Node.commonPrefixLength l k = 0 := h0
    rw [labelsNonempty_some] at h
    rw [Node.insert_and_count.eq_def] at he
    simp only [hp, if_pos rfl] at he
    cases hs : sib.insert_and_count k with
    | none => simp [hs] at he
    | some s2 =>
      simp [hs] at he
      subst he
      simp [h.1, h.2.1, ih hk h.2.2 s2 hs]
  | case2 l v c k p h0 =>
    intro hk h n2 he
    have hp : Node.commonPrefixLength l k = 0 := h0
    rw [labelsNonempty_some] at h
    rw [Node.insert_and_count.eq_def] at he
    simp [hp] at he
    subst he
    simp [h.1, h.2.1, Node.new, hk]
  | case3 l c s k p h0 hk hl =>
    intro hke h n2 he
    have hp : ¬ Node.commonPrefixLength l k = 0 := h0
    have hk2 : Node.commonPrefixLength l k < k.length := hk
    have hl2 : Node.commonPrefixLength l k < l.length := hl
    rw [Node.insert_and_count.eq_def] at he
    simp [hp, hk2, hl2] at he
  | case4 l c s k p h0 hk hl oldCount fresh ih =>
    intro hke h n2 he
    have hp : ¬ Node.commonPrefixLength l k = 0 := h0
    have hk2 : Node.commonPrefixLength l k < k.length := hk
    have hl2 : Node.commonPrefixLength l k < l.length := hl
    rw [labelsNonempty_some] at h
    have hfresh : labelsNonempty (some (Node.mk
        (l.drop (Node.commonPrefixLength l k)) (some oldCount) c none)) := by
      refine (labelsNonempty_some ..).mpr ⟨?_, h.2.1, labelsNonempty_none⟩
      intro hemp
      have := congrArg List.length hemp
      simp at this
      omega
    have hdk : k.drop (Node.commonPrefixLength l k) ≠ [] := by
      intro hemp
      have := congrArg List.length hemp
      simp at this
      omega
    have htk : l.take (Node.commonPrefixLength l k) ≠ [] := by
      intro hemp
      have h5 := congrArg List.length hemp
      rw [List.length_take] at h5
      simp only [List.length_nil] at h5
      have hlen : 0 < l.length := List.length_pos.mpr h.1
      omega
    rw [Node.insert_and_count.eq_def] at he
    simp only [if_neg hp, if_pos hk2, if_pos hl2] at he
    cases hs : (Node.mk (l.drop (Node.commonPrefixLength l k)) (some oldCount)
        c none).insert_and_count (k.drop (Node.commonPrefixLength l k)) with
    | none => simp [hs] at he
    | some c2 =>
      simp [hs] at he
      subst he
      simp [htk, h.2.2, ih hdk hfresh c2 hs]
  | case5 l v s k p h0 hk hl sib ih =>
    intro hke h n2 he
    have hp : ¬ Node.commonPrefixLength l k = 0 := h0
    have hk2 : Node.commonPrefixLength l k < k.length := hk
    have hl2 : ¬ Node.commonPrefixLength l k < l.length := hl
    rw [labelsNonempty_some] at h
    have hdk : k.drop (Node.commonPrefixLength l k) ≠ [] := by
      intro hemp
      have := congrArg List.length hemp
      simp at this
      omega
    rw [Node.insert_and_count.eq_def] at he
    simp only [if_neg hp, if_pos hk2, if_neg hl2] at he
    cases hs : sib.insert_and_count (k.drop (Node.commonPrefixLength l k)) with
    | none => simp [hs] at he
    | some c2 =>
      simp [hs] at he
      subst he
      simp [h.1, h.2.2, ih hdk h.2.1 c2 hs]
  | case6 l v s k p h0 hk hl =>
    intro hke h n2 he
    have hp : ¬ Node.commonPrefixLength l k = 0 := h0
    have hk2 : Node.commonPrefixLength l k < k.length := hk
    have hl2 : ¬ Node.commonPrefixLength l k < l.length := hl
    rw [labelsNonempty_some] at h
    have hdk : k.drop (Node.commonPrefixLength l k) ≠ [] := by
      intro hemp
      have := congrArg List.length hemp
      simp at this
      omega
    rw [Node.insert_and_count.eq_def] at he
    simp only [if_neg hp, if_pos hk2, if_neg hl2, Option.some.injEq] at he
    subst he
    simp [h.1, h.2.2, Node.new, hdk]
  | case7 l c s k p h0 hk count =>
    intro hke h n2 he
    have hp : ¬ Node.commonPrefixLength l k = 0 := h0
    have hk2 : ¬ Node.commonPrefixLength l k < k.length := hk
    rw [labelsNonempty_some] at h
    rw [Node.insert_and_count.eq_def] at he
    simp only [if_neg hp, if_neg hk2, Option.some.injEq] at he
    subst he
    simp [h.1, h.2.1, h.2.2]
  | case8 l c s k p h0 hk =>
    intro hke h n2 he
    have hp : ¬ Node.commonPrefixLength l k = 0 := h0
    have hk2 : ¬ Node.commonPrefixLength l k < k.length := hk
    rw [Node.insert_and_count.eq_def] at he
    simp [hp, hk2] at he

/-- Tree-level: either operation with a non-empty key preserves non-empty
labels. -/
theorem applyOp_labelsNonempty (t : Tree Nat) (op : Op Nat) (t2 : Tree Nat)
    (hk : op.opKey ≠ []) (h : labelsNonempty t.root)
    (he : applyOp t op = some t2) : labelsNonempty t2.root := by
  obtain ⟨r⟩ := t
  cases op with
  | ins k v =>
    have hk2 : k ≠ [] := hk
    cases r with
    | none =>
      simp [applyOp, Tree.insert] at he
      subst he
      simp [Node.new, hk2]
    | some n =>
      simp [applyOp, Tree.insert] at he
      subst he
      exact insert_labelsNonempty n k v hk2 h
  | cnt k =>
    have hk2 : k ≠ [] := hk
    cases r with
    | none =>
      simp [applyOp, Tree.insert_and_count] at he
      subst he
      simp [Node.new, hk2]
    | some n =>
      simp only [applyOp, Tree.insert_and_count] at he
      cases hs : n.insert_and_count k with
      | none => simp [hs] at he
      | some n2 =>
        simp [hs] at he
        subst he
        exact insert_and_count_labelsNonempty n k hk2 h n2 hs

theorem applyOps_labelsNonempty (ops : List (Op Nat)) :
    ∀ t t2 : Tree Nat, (∀ op ∈ ops, op.opKey ≠ []) → labelsNonempty t.root →
      applyOps t ops = some t2 → labelsNonempty t2.root := by
  induction ops with
  | nil =>
    intro t t2 _ h he
    simp [applyOps] at he
    subst he
    exact h
  | cons op rest ih =>
    intro t t2 hk h he
    simp only [applyOps] at he
    cases ha : applyOp t op with
    | none => simp [ha] at he
    | some t3 =>
      simp only [ha] at he
      exact ih t3 t2 (fun o ho => hk o (List.mem_cons_of_mem op ho))
        (applyOp_labelsNonempty t op t3 (hk op (List.mem_cons_self op rest)) h ha) he

/-- C5 (amended): in every tree reachable from the empty tree by any
sequence of `insert` or `insertAndCount` calls with non-empty keys, every
node present in the tree has a non-empty label.  (Inserting the empty key
does create an empty-label node, so the claim's "including with the empty
key" had to be dropped; see the counterexample.) -/
theorem C5_labels_nonempty (ops : List (Op Nat)) (t : Tree Nat)
    (hk : ∀ op ∈ ops, op.opKey ≠ [])
    (h : applyOps Tree.new ops = some t) :
    labelsNonempty t.root :=
  applyOps_labelsNonempty ops Tree.new t hk (by simp [Tree.new]) h

/-- Witness for C5 at a concrete run: `insert [3]` then `insertAndCount
[3]`. -/
theorem C5_witness :
    applyOps Tree.new [Op.ins [3] (0:Nat), Op.cnt [3]] =
      some ⟨some (.mk [3] (some 1) none none)⟩ ∧
    labelsNonempty (Tree.mk (some (.mk [3] (some (1:Nat)) none none))).root :=
  ⟨by simp [applyOps, applyOp, Tree.insert, Tree.insert_and_count, Tree.new,
      Node.insert_and_count, Node.new],
   C5_labels_nonempty [Op.ins [3] (0:Nat), Op.cnt [3]] _
     (by intro op hop; fin_cases hop <;> simp [Op.opKey])
     (by simp [applyOps, applyOp, Tree.insert, Tree.insert_and_count, Tree.new,
       Node.insert_and_count, Node.new])⟩

/-- Counterexample for C5 as stated: inserting the empty key into the empty
tree creates a root node whose label is empty, observable between
operations. -/
theorem C5_counterexample :
    applyOps Tree.new [Op.ins [] (0:Nat)] =
      some ⟨some (.mk [] (some 0) none none)⟩ ∧
    ¬ labelsNonempty (Tree.mk (some (.mk [] (some (0:Nat)) none none))).root := by
  constructor
  · simp [applyOps, applyOp, Tree.insert, Tree.new, Node.new]
  · simp

/-! ## C4: prefix-disjoint sibling chains -/

/-- Every label of the chain after an insertion is a prefix of an old chain
label or is the inserted key itself. -/
theorem chainLabels_insert (n : Node α) (k : List Nat) (v : α) :
    ∀ l2 ∈ chainLabels (some (n.insert k v)),
      (∃ l1 ∈ chainLabels (some n), l2 <+: l1) ∨ l2 = k := by
  induction n, k, v using Node.insert.induct with
  | case1 l v c k val p h0 sib ih =>
    have hp : Node.commonPrefixLength l k = 0 := h0
    rw [Node.insert.eq_def]
    simp only [if_pos hp]
    intro l2 hl2
    rw [chainLabels_some, List.mem_cons] at hl2
    rcases hl2 with rfl | hl2
    · exact Or.inl ⟨l2, by simp, List.prefix_refl l2⟩
    · rcases ih l2 hl2 with ⟨l1, hm, hpre⟩ | rfl
      · exact Or.inl ⟨l1, by simp [hm], hpre⟩
      · exact Or.inr rfl
  | case2 l v c k val p h0 =>
    have hp : Node.commonPrefixLength l k = 0 := h0
    rw [Node.insert.eq_def]
    simp only [if_pos hp]
    intro l2 hl2
    rw [chainLabels_some, List.mem_cons] at hl2
    rcases hl2 with rfl | hl2
    · exact Or.inl ⟨l2, by simp, List.prefix_refl l2⟩
    · simp [Node.new] at hl2
      exact Or.inr hl2
  | case3 l v c s k val p h0 hk hl fresh ih =>
    have hp : ¬ Node.commonPrefixLength l k = 0 := h0
    have hk2 : Node.commonPrefixLength l k < k.length := hk
    have hl2 : Node.commonPrefixLength l k < l.length := hl
    rw [Node.insert.eq_def]
    simp only [if_neg hp, if_pos hk2, if_pos hl2]
    intro l2 hm
    rw [chainLabels_some, List.mem_cons] at hm
    rcases hm with rfl | hm
    · exact Or.inl ⟨l, by simp, List.take_prefix _ l⟩
    · exact Or.inl ⟨l2, by simp [hm], List.prefix_refl l2⟩
  | case4 l v s k val p h0 hk hl sib ih =>
    have hp : ¬ Node.commonPrefixLength l k = 0 := h0
    have hk2 : Node.commonPrefixLength l k < k.length := hk
    have hl2 : ¬ Node.commonPrefixLength l k < l.length := hl
    rw [Node.insert.eq_def]
    simp only [if_neg hp, if_pos hk2, if_neg hl2]
    intro l2 hm
    rw [chainLabels_some, List.mem_cons] at hm
    rcases hm with rfl | hm
    · exact Or.inl ⟨l2, by simp, List.prefix_refl l2⟩
    · exact Or.inl ⟨l2, by simp [hm], List.prefix_refl l2⟩
  | case5 l v s k val p h0 hk hl =>
    have hp : ¬ Node.commonPrefixLength l k = 0 := h0
    have hk2 : Node.commonPrefixLength l k < k.length := hk
    have hl2 : ¬ Node.commonPrefixLength l k < l.length := hl
    rw [Node.insert.eq_def]
    simp only [if_neg hp, if_pos hk2, if_neg hl2]
    intro l2 hm
    rw [chainLabels_some, List.mem_cons] at hm
    rcases hm with rfl | hm
    · exact Or.inl ⟨l2, by simp, List.prefix_refl l2⟩
    · exact Or.inl ⟨l2, by simp [hm], List.prefix_refl l2⟩
  | case6 l v c s k val p h0 hk =>
    have hp : ¬ Node.commonPrefixLength l k = 0 := h0
    have hk2 : ¬ Node.commonPrefixLength l k < k.length := hk
    rw [Node.insert.eq_def]
    simp only [if_neg hp, if_neg hk2]
    intro l2 hm
    exact Or.inl ⟨l2, hm, List.prefix_refl l2⟩

/-- Every label of the chain after a counting insertion is a prefix of an
old chain label or is the inserted key itself. -/
theorem chainLabels_insert_and_count (n : Node Nat) (k : List Nat) :
    ∀ n2, n.insert_and_count k = some n2 →
    ∀ l2 ∈ chainLabels (some n2),
      (∃ l1 ∈ chainLabels (some n), l2 <+: l1) ∨ l2 = k := by
  induction n, k using Node.insert_and_count.induct with
  | case1 l v c k p h0 sib ih =>
    intro n2 he
    have hp : Node.commonPrefixLength l k = 0 := h0
    rw [Node.insert_and_count.eq_def] at he
    simp only [if_pos hp] at he
    cases hs : sib.insert_and_count k with
    | none => simp [hs] at he
    | some s2 =>
      simp [hs] at he
      subst he
      intro l2 hl2
      rw [chainLabels_some, List.mem_cons] at hl2
      rcases hl2 with rfl | hl2
      · exact Or.inl ⟨l2, by simp, List.prefix_refl l2⟩
      · rcases ih s2 hs l2 hl2 with ⟨l1, hm, hpre⟩ | rfl
        · exact Or.inl ⟨l1, by simp [hm], hpre⟩
        · exact Or.inr rfl
  | case2 l v c k p h0 =>
    intro n2 he
    have hp : Node.commonPrefixLength l k = 0 := h0
    rw [Node.insert_and_count.eq_def] at he
    simp only [if_pos hp, Option.some.injEq] at he
    subst he
    intro l2 hl2
    rw [chainLabels_some, List.mem_cons] at hl2
    rcases hl2 with rfl | hl2
    · exact Or.inl ⟨l2, by simp, List.prefix_refl l2⟩
    · simp [Node.new] at hl2
      exact Or.inr hl2
  | case3 l c s k p h0 hk hl =>
    intro n2 he
    have hp : ¬ Node.commonPrefixLength l k = 0 := h0
    have hk2 : Node.commonPrefixLength l k < k.length := hk
    have hl2 : Node.commonPrefixLength l k < l.length := hl
    rw [Node.insert_and_count.eq_def] at he
    simp [hp, hk2, hl2] at he
  | case4 l c s k p h0 hk hl oldCount fresh ih =>
    intro n2 he
    have hp : ¬ Node.commonPrefixLength l k = 0 := h0
    have hk2 : Node.commonPrefixLength l k < k.length := hk
    have hl2 : Node.commonPrefixLength l k < l.length := hl
    rw [Node.insert_and_count.eq_def] at he
    simp only [if_neg hp, if_pos hk2, if_pos hl2] at he
    cases hs : (Node.mk (l.drop (Node.commonPrefixLength l k)) (some oldCount)
        c none).insert_and_count (k.drop (Node.commonPrefixLength l k)) with
    | none => simp [hs] at he
    | some c2 =>
      simp [hs] at he
      subst he
      intro l2 hm
      rw [chainLabels_some, List.mem_cons] at hm
      rcases hm with rfl | hm
      · exact Or.inl ⟨l, by simp, List.take_prefix _ l⟩
      · exact Or.inl ⟨l2, by simp [hm], List.prefix_refl l2⟩
  | case5 l v s k p h0 hk hl sib ih =>
    intro n2 he
    have hp : ¬ Node.commonPrefixLength l k = 0 := h0
    have hk2 : Node.commonPrefixLength l k < k.length := hk
    have hl2 : ¬ Node.commonPrefixLength l k < l.length := hl
    rw [Node.insert_and_count.eq_def] at he
    simp only [if_neg hp, if_pos hk2, if_neg hl2] at he
    cases hs : sib.insert_and_count (k.drop (Node.commonPrefixLength l k)) with
    | none => simp [hs] at he
    | some c2 =>
      simp [hs] at he
      subst he
      intro l2 hm
      rw [chainLabels_some, List.mem_cons] at hm
      rcases hm with rfl | hm
      · exact Or.inl ⟨l2, by simp, List.prefix_refl l2⟩
      · exact Or.inl ⟨l2, by simp [hm], List.prefix_refl l2⟩
  | case6 l v s k p h0 hk hl =>
    intro n2 he
    have hp : ¬ Node.commonPrefixLength l k = 0 := h0
    have hk2 : Node.commonPrefixLength l k < k.length := hk
    have hl2 : ¬ Node.commonPrefixLength l k < l.length := hl
    rw [Node.insert_and_count.eq_def] at he
    simp only [if_neg hp, if_pos hk2, if_neg hl2, Option.some.injEq] at he
    subst he
    intro l2 hm
    rw [chainLabels_some, List.mem_cons] at hm
    rcases hm with rfl | hm
    · exact Or.inl ⟨l2, by simp, List.prefix_refl l2⟩
    · exact Or.inl ⟨l2, by simp [hm], List.prefix_refl l2⟩
  | case7 l c s k p h0 hk count =>
    intro n2 he
    have hp : ¬ Node.commonPrefixLength l k = 0 := h0
    have hk2 : ¬ Node.commonPrefixLength l k < k.length := hk
    rw [Node.insert_and_count.eq_def] at he
    simp only [if_neg hp, if_neg hk2, Option.some.injEq] at he
    subst he
    intro l2 hm
    rw [chainLabels_some] at hm
    exact Or.inl ⟨l2, by simp [hm], List.prefix_refl l2⟩
  | case8 l c s k p h0 hk =>
    intro n2 he
    have hp : ¬ Node.commonPrefixLength l k = 0 := h0
    have hk2 : ¬ Node.commonPrefixLength l k < k.length := hk
    rw [Node.insert_and_count.eq_def] at he
    simp [hp, hk2] at he

/-- Prefix monotonicity of the common prefix in the right argument. -/
theorem Node.commonPrefixLength_prefix_right_le (a : List Nat) {b2 b : List Nat}
    (h : b2 <+: b) :
    Node.commonPrefixLength a b2 ≤ Node.commonPrefixLength a b := by
  rw [Node.commonPrefixLength_comm a b2, Node.commonPrefixLength_comm a b]
  exact Node.commonPrefixLength_of_prefix_le a h

/-- `insert` preserves prefix-disjoint sibling chains. -/
theorem insert_chainsDisjoint (n : Node α) (k : List Nat) (v : α) :
    chainsDisjoint (some n) → chainsDisjoint (some (n.insert k v)) := by
  induction n, k, v using Node.insert.induct with
  | case1 l v c k val p h0 sib ih =>
    intro h
    have hp : Node.commonPrefixLength l k = 0 := h0
    rw [chainsDisjoint_some] at h
    rw [Node.insert.eq_def]
    simp only [if_pos hp]
    rw [chainsDisjoint_some]
    refine ⟨?_, h.2.1, ih h.2.2⟩
    intro l2 hl2
    rcases chainLabels_insert sib k val l2 hl2 with ⟨l1, hm, hpre⟩ | rfl
    · have h3 := Node.commonPrefixLength_prefix_right_le l hpre
      have h2 := h.1 l1 hm
      omega
    · exact hp
  | case2 l v c k val p h0 =>
    intro h
    have hp : Node.commonPrefixLength l k = 0 := h0
    rw [chainsDisjoint_some] at h
    rw [Node.insert.eq_def]
    simp only [if_pos hp]
    rw [chainsDisjoint_some]
    refine ⟨?_, h.2.1, ?_⟩
    · intro l2 hl2
      simp [Node.new] at hl2
      subst hl2
      exact hp
    · simp [Node.new]
  | case3 l v c s k val p h0 hk hl fresh ih =>
    intro h
    have hp : ¬ Node.commonPrefixLength l k = 0 := h0
    have hk2 : Node.commonPrefixLength l k < k.length := hk
    have hl2 : Node.commonPrefixLength l k < l.length := hl
    rw [chainsDisjoint_some] at h
    rw [Node.insert.eq_def]
    simp only [if_neg hp, if_pos hk2, if_pos hl2]
    rw [chainsDisjoint_some]
    refine ⟨?_, ?_, h.2.2⟩
    · intro l2 hl2m
      rw [Node.commonPrefixLength_take, h.1 l2 hl2m]
      simp
    · refine ih ?_
      rw [chainsDisjoint_some]
      exact ⟨by simp, h.2.1, chainsDisjoint_none⟩
  | case4 l v s k val p h0 hk hl sib ih =>
    intro h
    have hp : ¬ Node.commonPrefixLength l k = 0 := h0
    have hk2 : Node.commonPrefixLength l k < k.length := hk
    have hl2 : ¬ Node.commonPrefixLength l k < l.length := hl
    rw [chainsDisjoint_some] at h
    rw [Node.insert.eq_def]
    simp only [if_neg hp, if_pos hk2, if_neg hl2]
    rw [chainsDisjoint_some]
    exact ⟨h.1, ih h.2.1, h.2.2⟩
  | case5 l v s k val p h0 hk hl =>
    intro h
    have hp : ¬ Node.commonPrefixLength l k = 0 := h0
    have hk2 : Node.commonPrefixLength l k < k.length := hk
    have hl2 : ¬ Node.commonPrefixLength l k < l.length := hl
    rw [chainsDisjoint_some] at h
    rw [Node.insert.eq_def]
    simp only [if_neg hp, if_pos hk2, if_neg hl2]
    rw [chainsDisjoint_some]
    exact ⟨h.1, by simp [Node.new], h.2.2⟩
  | case6 l v c s k val p h0 hk =>
    intro h
    have hp : ¬ Node.commonPrefixLength l k = 0 := h0
    have hk2 : ¬ Node.commonPrefixLength l k < k.length := hk
    rw [Node.insert.eq_def]
    simp only [if_neg hp, if_neg hk2]
    exact h

/-- `insert_and_count` preserves prefix-disjoint sibling chains. -/
theorem insert_and_count_chainsDisjoint (n : Node Nat) (k : List Nat) :
    chainsDisjoint (some n) →
    ∀ n2, n.insert_and_count k = some n2 → chainsDisjoint (some n2) := by
  induction n, k using Node.insert_and_count.induct with
  | case1 l v c k p h0 sib ih =>
    intro h n2 he
    have hp : Node.commonPrefixLength l k = 0 := h0
    rw [chainsDisjoint_some] at h
    rw [Node.insert_and_count.eq_def] at he
    simp only [if_pos hp] at he
    cases hs : sib.insert_and_count k with
    | none => simp [hs] at he
    | some s2 =>
      simp [hs] at he
      subst he
      rw [chainsDisjoint_some]
      refine ⟨?_, h.2.1, ih h.2.2 s2 hs⟩
      intro l2 hl2
      rcases chainLabels_insert_and_count sib k s2 hs l2 hl2 with
        ⟨l1, hm, hpre⟩ | rfl
      · have h3 := Node.commonPrefixLength_prefix_right_le l hpre
        have h2 := h.1 l1 hm
        omega
      · exact hp
  | case2 l v c k p h0 =>
    intro h n2 he
    have hp : Node.commonPrefixLength l k = 0 := h0
    rw [chainsDisjoint_some] at h
    rw [Node.insert_and_count.eq_def] at he
    simp only [if_pos hp, Option.some.injEq] at he
    subst he
    rw [chainsDisjoint_some]
    refine ⟨?_, h.2.1, ?_⟩
    · intro l2 hl2
      simp [Node.new] at hl2
      subst hl2
      exact hp
    · simp [Node.new]
  | case3 l c s k p h0 hk hl =>
    intro h n2 he
    have hp : ¬ Node.commonPrefixLength l k = 0 := h0
    have hk2 : Node.commonPrefixLength l k < k.length := hk
    have hl2 : Node.commonPrefixLength l k < l.length := hl
    rw [Node.insert_and_count.eq_def] at he
    simp [hp, hk2, hl2] at he
  | case4 l c s k p h0 hk hl oldCount fresh ih =>
    intro h n2 he
    have hp : ¬ Node.commonPrefixLength l k = 0 := h0
    have hk2 : Node.commonPrefixLength l k < k.length := hk
    have hl2 : Node.commonPrefixLength l k < l.length := hl
    rw [chainsDisjoint_some] at h
    rw [Node.insert_and_count.eq_def] at he
    simp only [if_neg hp, if_pos hk2, if_pos hl2] at he
    cases hs : (Node.mk (l.drop (Node.commonPrefixLength l k)) (some oldCount)
        c none).insert_and_count (k.drop (Node.commonPrefixLength l k)) with
    | none => simp [hs] at he
    | some c2 =>
      simp [hs] at he
      subst he
      rw [chainsDisjoint_some]
      refine ⟨?_, ?_, h.2.2⟩
      · intro l2 hl2m
        rw [Node.commonPrefixLength_take, h.1 l2 hl2m]
        simp
      · refine ih ?_ c2 hs
        rw [chainsDisjoint_some]
        exact ⟨by simp, h.2.1, chainsDisjoint_none⟩
  | case5 l v s k p h0 hk hl sib ih =>
    intro h n2 he
    have hp : ¬ Node.commonPrefixLength l k = 0 := h0
    have hk2 : Node.commonPrefixLength l k < k.length := hk
    have hl2 : ¬ Node.commonPrefixLength l k < l.length := hl
    rw [chainsDisjoint_some] at h
    rw [Node.insert_and_count.eq_def] at he
    simp only [if_neg hp, if_pos hk2, if_neg hl2] at he
    cases hs : sib.insert_and_count (k.drop (Node.commonPrefixLength l k)) with
    | none => simp [hs] at he
    | some c2 =>
      simp [hs] at he
      subst he
      rw [chainsDisjoint_some]
      exact ⟨h.1, ih h.2.1 c2 hs, h.2.2⟩
  | case6 l v s k p h0 hk hl =>
    intro h n2 he
    have hp : ¬ Node.commonPrefixLength l k = 0 := h0
    have hk2 : Node.commonPrefixLength l k < k.length := hk
    have hl2 : ¬ Node.commonPrefixLength l k < l.length := hl
    rw [chainsDisjoint_some] at h
    rw [Node.insert_and_count.eq_def] at he
    simp only [if_neg hp, if_pos hk2, if_neg hl2, Option.some.injEq] at he
    subst he
    rw [chainsDisjoint_some]
    exact ⟨h.1, by simp [Node.new], h.2.2⟩
  | case7 l c s k p h0 hk count =>
    intro h n2 he
    have hp : ¬ Node.commonPrefixLength l k = 0 := h0
    have hk2 : ¬ Node.commonPrefixLength l k < k.length := hk
    rw [chainsDisjoint_some] at h
    rw [Node.insert_and_count.eq_def] at he
    simp only [if_neg hp, if_neg hk2, Option.some.injEq] at he
    subst he
    rw [chainsDisjoint_some]
    exact h
  | case8 l c s k p h0 hk =>
    intro h n2 he
    have hp : ¬ Node.commonPrefixLength l k = 0 := h0
    have hk2 : ¬ Node.commonPrefixLength l k < k.length := hk
    rw [Node.insert_and_count.eq_def] at he
    simp [hp, hk2] at he

/-- Either operation preserves prefix-disjoint sibling chains. -/
theorem applyOp_chainsDisjoint (t : Tree Nat) (op : Op Nat) (t2 : Tree Nat)
    (h : chainsDisjoint t.root) (he : applyOp t op = some t2) :
    chainsDisjoint t2.root := by
  obtain ⟨r⟩ := t
  cases op with
  | ins k v =>
    cases r with
    | none =>
      simp [applyOp, Tree.insert] at he
      subst he
      simp [Node.new]
    | some n =>
      simp [applyOp, Tree.insert] at he
      subst he
      exact insert_chainsDisjoint n k v h
  | cnt k =>
    cases r with
    | none =>
      simp [applyOp, Tree.insert_and_count] at he
      subst he
      simp [Node.new]
    | some n =>
      simp only [applyOp, Tree.insert_and_count] at he
      cases hs : n.insert_and_count k with
      | none => simp [hs] at he
      | some n2 =>
        simp [hs] at he
        subst he
        exact insert_and_count_chainsDisjoint n k h n2 hs

theorem applyOps_chainsDisjoint (ops : List (Op Nat)) :
    ∀ t t2 : Tree Nat, chainsDisjoint t.root →
      applyOps t ops = some t2 → chainsDisjoint t2.root := by
  induction ops with
  | nil =>
    intro t t2 h he
    simp [applyOps] at he
    subst he
    exact h
  | cons op rest ih =>
    intro t t2 h he
    simp only [applyOps] at he
    cases ha : applyOp t op with
    | none => simp [ha] at he
    | some t3 =>
      simp only [ha] at he
      exact ih t3 t2 (applyOp_chainsDisjoint t op t3 h ha) he

/-- C4: in every tree reachable from the empty tree by any sequence of
`insert` or `insertAndCount` calls, no two nodes in the same sibling chain
have labels sharing a nonzero common prefix. -/
theorem C4_prefix_invariant (ops : List (Op Nat)) (t : Tree Nat)
    (h : applyOps Tree.new ops = some t) : chainsDisjoint t.root :=
  applyOps_chainsDisjoint ops Tree.new t (by simp [Tree.new]) h

/-- Witness for C4 at a concrete run (a split plus an unrelated sibling). -/
theorem C4_witness :
    applyOps Tree.new [Op.cnt [3,137,2], Op.cnt [3,137,99], Op.ins [7] 5] =
      some ⟨some (.mk [3,137] (some 2)
        (some (.mk [2] (some 1) none (some (.mk [99] (some 1) none none))))
        (some (.mk [7] (some 5) none none)))⟩ ∧
    chainsDisjoint (Tree.mk (some (.mk [3,137] (some 2)
        (some (.mk [2] (some 1) none (some (.mk [99] (some 1) none none))))
        (some (.mk [7] (some 5) none none)))) : Tree Nat).root :=
  ⟨by simp [applyOps, applyOp, Tree.insert, Tree.insert_and_count, Tree.new,
      Node.insert, Node.insert_and_count, Node.new],
   C4_prefix_invariant [Op.cnt [3,137,2], Op.cnt [3,137,99], Op.ins [7] 5] _
     (by simp [applyOps, applyOp, Tree.insert, Tree.insert_and_count, Tree.new,
       Node.insert, Node.insert_and_count, Node.new])⟩

/-! ## C1: round trip -/

/-- Inserting a key unrelated to `K` keeps every chain label unrelated to
`K`. -/
theorem insert_unrelatedChain (K : List Nat) (n : Node α) (k : List Nat)
    (v : α) (hk : Node.commonPrefixLength k K = 0)
    (h : unrelatedChain K (some n)) :
    unrelatedChain K (some (n.insert k v)) := by
  intro l2 hl2
  rcases chainLabels_insert n k v l2 hl2 with ⟨l1, hm, hpre⟩ | rfl
  · have h2 := h l1 hm
    have h3 := Node.commonPrefixLength_of_prefix_le K hpre
    omega
  · exact hk

/-- Inserting `K` into a chain of labels unrelated to `K` appends a node
with label exactly `K` and value `V`. -/
theorem insert_foundValue (n : Node α) (K : List Nat) (V : α) :
    K ≠ [] → unrelatedChain K (some n) →
    foundValue K V (some (n.insert K V)) := by
  induction n, K, V using Node.insert.induct with
  | case1 l v c k val p h0 sib ih =>
    intro hk h
    have hp : Node.commonPrefixLength l k = 0 := h0
    rw [unrelatedChain_some] at h
    rw [Node.insert.eq_def]
    simp only [if_pos hp]
    rw [foundValue_some]
    exact Or.inl ⟨hp, ih hk h.2⟩
  | case2 l v c k val p h0 =>
    intro hk h
    have hp : Node.commonPrefixLength l k = 0 := h0
    rw [Node.insert.eq_def]
    simp only [if_pos hp]
    rw [foundValue_some]
    refine Or.inl ⟨hp, ?_⟩
    simp [Node.new]
  | case3 l v c s k val p h0 hk hl fresh ih =>
    intro hke h
    have hp : ¬ Node.commonPrefixLength l k = 0 := h0
    rw [unrelatedChain_some] at h
    exact absurd h.1 hp
  | case4 l v s k val p h0 hk hl sib ih =>
    intro hke h
    have hp : ¬ Node.commonPrefixLength l k = 0 := h0
    rw [unrelatedChain_some] at h
    exact absurd h.1 hp
  | case5 l v s k val p h0 hk hl =>
    intro hke h
    have hp : ¬ Node.commonPrefixLength l k = 0 := h0
    rw [unrelatedChain_some] at h
    exact absurd h.1 hp
  | case6 l v c s k val p h0 hk =>
    intro hke h
    have hp : ¬ Node.commonPrefixLength l k = 0 := h0
    rw [unrelatedChain_some] at h
    exact absurd h.1 hp

/-- Inserting a key unrelated to `K` preserves the presence of the `K` node
with its value. -/
theorem insert_preserves_foundValue (K : List Nat) (V : α) (n : Node α)
    (k : List Nat) (v : α) :
    Node.commonPrefixLength k K = 0 →
    foundValue K V (some n) → foundValue K V (some (n.insert k v)) := by
  induction n, k, v using Node.insert.induct with
  | case1 l v c k val p h0 sib ih =>
    intro hkK h
    have hp : Node.commonPrefixLength l k = 0 := h0
    rw [foundValue_some] at h
    rw [Node.insert.eq_def]
    simp only [if_pos hp]
    rw [foundValue_some]
    rcases h with ⟨ha, hb⟩ | hfound
    · exact Or.inl ⟨ha, ih hkK hb⟩
    · exact Or.inr hfound
  | case2 l v c k val p h0 =>
    intro hkK h
    have hp : Node.commonPrefixLength l k = 0 := h0
    rw [foundValue_some] at h
    rw [Node.insert.eq_def]
    simp only [if_pos hp]
    rw [foundValue_some]
    rcases h with ⟨ha, hb⟩ | hfound
    · exact absurd hb (foundValue_none K V)
    · exact Or.inr hfound
  | case3 l v c s k val p h0 hk hl fresh ih =>
    intro hkK h
    have hp : ¬ Node.commonPrefixLength l k = 0 := h0
    have hk2 : Node.commonPrefixLength l k < k.length := hk
    have hl2 : Node.commonPrefixLength l k < l.length := hl
    rw [foundValue_some] at h
    rw [Node.insert.eq_def]
    simp only [if_neg hp, if_pos hk2, if_pos hl2]
    rw [foundValue_some]
    rcases h with ⟨ha, hb⟩ | ⟨rfl, hv⟩
    · refine Or.inl ⟨?_, hb⟩
      rw [Node.commonPrefixLength_take, ha]
      simp
    · rw [Node.commonPrefixLength_comm] at hkK
      exact absurd hkK hp
  | case4 l v s k val p h0 hk hl sib ih =>
    intro hkK h
    have hp : ¬ Node.commonPrefixLength l k = 0 := h0
    have hk2 : Node.commonPrefixLength l k < k.length := hk
    have hl2 : ¬ Node.commonPrefixLength l k < l.length := hl
    rw [foundValue_some] at h
    rw [Node.insert.eq_def]
    simp only [if_neg hp, if_pos hk2, if_neg hl2]
    rw [foundValue_some]
    rcases h with ⟨ha, hb⟩ | hfound
    · exact Or.inl ⟨ha, hb⟩
    · exact Or.inr hfound
  | case5 l v s k val p h0 hk hl =>
    intro hkK h
    have hp : ¬ Node.commonPrefixLength l k = 0 := h0
    have hk2 : Node.commonPrefixLength l k < k.length := hk
    have hl2 : ¬ Node.commonPrefixLength l k < l.length := hl
    rw [foundValue_some] at h
    rw [Node.insert.eq_def]
    simp only [if_neg hp, if_pos hk2, if_neg hl2]
    rw [foundValue_some]
    rcases h with ⟨ha, hb⟩ | hfound
    · exact Or.inl ⟨ha, hb⟩
    · exact Or.inr hfound
  | case6 l v c s k val p h0 hk =>
    intro hkK h
    have hp : ¬ Node.commonPrefixLength l k = 0 := h0
    have hk2 : ¬ Node.commonPrefixLength l k < k.length := hk
    rw [Node.insert.eq_def]
    simp only [if_neg hp, if_neg hk2]
    exact h

/-- A chain satisfying `foundValue K V` answers `find K` with a node whose
value is `V`. -/
theorem foundValue_find (n : Node α) (K : List Nat) :
    ∀ V : α, foundValue K V (some n) → K ≠ [] →
    ∃ m, n.find K = some m ∧ m.value = some V := by
  induction n, K using Node.find.induct with
  | case1 l v c k p h0 sib ih =>
    intro V h hk
    have hp : Node.commonPrefixLength l k = 0 := h0
    rw [foundValue_some] at h
    rcases h with ⟨ha, hb⟩ | ⟨rfl, hv⟩
    · obtain ⟨m, hm, hmv⟩ := ih V hb hk
      refine ⟨m, ?_, hmv⟩
      rw [Node.find.eq_def]
      simp [hp, hm]
    · rw [Node.commonPrefixLength_self] at hp
      exact absurd (List.length_eq_zero.mp hp) hk
  | case2 l v c k p h0 =>
    intro V h hk
    have hp : Node.commonPrefixLength l k = 0 := h0
    rw [foundValue_some] at h
    rcases h with ⟨ha, hb⟩ | ⟨rfl, hv⟩
    · exact absurd hb (foundValue_none k V)
    · rw [Node.commonPrefixLength_self] at hp
      exact absurd (List.length_eq_zero.mp hp) hk
  | case3 l v c s k p h0 hl hk =>
    intro V h hke
    have hp : ¬ Node.commonPrefixLength l k = 0 := h0
    have hl2 : Node.commonPrefixLength l k = l.length := hl
    have hk2 : Node.commonPrefixLength l k = k.length := hk
    rw [foundValue_some] at h
    rcases h with ⟨ha, hb⟩ | ⟨rfl, hv⟩
    · exact absurd ha hp
    · refine ⟨.mk l v c s, ?_, hv⟩
      rw [Node.find.eq_def]
      simp only [if_neg hp, if_pos hl2, if_pos hk2]
  | case4 l v s k p h0 hl hk sib ih =>
    intro V h hke
    have hp : ¬ Node.commonPrefixLength l k = 0 := h0
    have hk2 : ¬ Node.commonPrefixLength l k = k.length := hk
    rw [foundValue_some] at h
    rcases h with ⟨ha, hb⟩ | ⟨rfl, hv⟩
    · exact absurd ha hp
    · rw [Node.commonPrefixLength_self] at hk2
      exact absurd rfl hk2
  | case5 l v s k p h0 hl hk =>
    intro V h hke
    have hp : ¬ Node.commonPrefixLength l k = 0 := h0
    have hk2 : ¬ Node.commonPrefixLength l k = k.length := hk
    rw [foundValue_some] at h
    rcases h with ⟨ha, hb⟩ | ⟨rfl, hv⟩
    · exact absurd ha hp
    · rw [Node.commonPrefixLength_self] at hk2
      exact absurd rfl hk2
  | case6 l v c s k p h0 hl =>
    intro V h hke
    have hp : ¬ Node.commonPrefixLength l k = 0 := h0
    have hl2 : ¬ Node.commonPrefixLength l k = l.length := hl
    rw [foundValue_some] at h
    rcases h with ⟨ha, hb⟩ | ⟨rfl, hv⟩
    · exact absurd ha hp
    · rw [Node.commonPrefixLength_self] at hl2
      exact absurd rfl hl2

/-- Inserting a list of keys each unrelated to `K` keeps the root chain
unrelated to `K`. -/
theorem insertList_unrelatedChain (K : List Nat) (pre : List (List Nat × α)) :
    ∀ t : Tree α, (∀ pair ∈ pre, Node.commonPrefixLength pair.1 K = 0) →
    unrelatedChain K t.root → unrelatedChain K (insertList t pre).root := by
  induction pre with
  | nil => exact fun t _ h => h
  | cons pair rest ih =>
    intro t hrel h
    obtain ⟨k, v⟩ := pair
    rw [insertList]
    refine ih (t.insert k v)
      (fun q hq => hrel q (List.mem_cons_of_mem _ hq)) ?_
    have hkK : Node.commonPrefixLength k K = 0 :=
      hrel (k, v) (List.mem_cons_self _ rest)
    obtain ⟨r⟩ := t
    cases r with
    | none =>
      simp only [Tree.insert]
      intro l2 hl2
      simp [Node.new] at hl2
      subst hl2
      exact hkK
    | some n => exact insert_unrelatedChain K n k v hkK h
  
/-- Inserting a list of keys each unrelated to `K` preserves the presence of
the `K` node with its value. -/
theorem insertList_foundValue (K : List Nat) (V : α)
    (post : List (List Nat × α)) :
    ∀ t : Tree α, (∀ pair ∈ post, Node.commonPrefixLength pair.1 K = 0) →
    foundValue K V t.root → foundValue K V (insertList t post).root := by
  induction post with
  | nil => exact fun t _ h => h
  | cons pair rest ih =>
    intro t hrel h
    obtain ⟨k, v⟩ := pair
    rw [insertList]
    refine ih (t.insert k v)
      (fun q hq => hrel q (List.mem_cons_of_mem _ hq)) ?_
    have hkK : Node.commonPrefixLength k K = 0 :=
      hrel (k, v) (List.mem_cons_self _ rest)
    obtain ⟨r⟩ := t
    cases r with
    | none => exact absurd h (foundValue_none K V)
    | some n => exact insert_preserves_foundValue K V n k v hkK h

/-- C1 (amended): for every non-empty key `K` inserted with value `V` via
`insert`, `find K` returns a node whose value equals `V`, and this continues
to hold when the insertion of `K` is interleaved with insertions of other
keys unrelated to `K` (sharing no nonzero prefix with `K`).  The empty key
is excluded: see the counterexample. -/
theorem C1_round_trip (α : Type) (pre post : List (List Nat × α))
    (K : List Nat) (V : α) (hK : K ≠ [])
    (hpre : ∀ pair ∈ pre, Node.commonPrefixLength pair.1 K = 0)
    (hpost : ∀ pair ∈ post, Node.commonPrefixLength pair.1 K = 0) :
    ((insertList ((insertList Tree.new pre).insert K V) post).find K).map
      Node.value = some (some V) := by
  have h1 : unrelatedChain K (insertList Tree.new pre).root :=
    insertList_unrelatedChain K pre Tree.new hpre (by simp [Tree.new])
  have h2 : foundValue K V ((insertList Tree.new pre).insert K V).root := by
    cases hr : (insertList Tree.new pre).root with
    | none =>
      simp only [Tree.insert, hr, Node.new]
      rw [foundValue_some]
      exact Or.inr ⟨rfl, rfl⟩
    | some n =>
      have h4 := insert_foundValue n K V hK (by rw [hr] at h1; exact h1)
      simp only [Tree.insert, hr]
      exact h4
  have h3 := insertList_foundValue K V post _ hpost h2
  cases hr : (insertList ((insertList Tree.new pre).insert K V) post).root with
  | none =>
    rw [hr] at h3
    exact absurd h3 (foundValue_none K V)
  | some n =>
    rw [hr] at h3
    obtain ⟨m, hm, hv⟩ := foundValue_find n K V h3 hK
    simp [Tree.find, hr, hm, hv]

/-- Witness for C1 at a concrete interleaving: insert `[5]`, then `K=[3,9]`
with value 42, then `[6,1]`; `find [3,9]` returns value 42. -/
theorem C1_witness :
    ((insertList ((insertList Tree.new [([5],(7:Nat))]).insert [3,9] 42)
      [([6,1],8)]).find [3,9]).map Node.value = some (some 42) :=
  C1_round_trip Nat [([5],7)] [([6,1],8)] [3,9] 42 (by simp)
    (by
      intro pair hp
      fin_cases hp
      simp)
    (by
      intro pair hp
      fin_cases hp
      simp)

/-- Counterexample for C1 as stated: the empty key is inserted (creating an
empty-label root) but `find []` then returns `NotFound`, not a node with the
inserted value. -/
theorem C1_counterexample :
    Tree.insert Tree.new [] (0:Nat) = ⟨some (.mk [] (some 0) none none)⟩ ∧
    (Tree.mk (some (.mk [] (some (0:Nat)) none none))).find [] = none := by
  constructor
  · simp [Tree.insert, Tree.new, Node.new]
  · simp [Tree.find, Node.find]

/-! ## C6: counting monotonicity -/

/-- A counting insertion of a key unrelated to `K` keeps every chain label
unrelated to `K`. -/
theorem insert_and_count_unrelatedChain (K : List Nat) (n : Node Nat)
    (k : List Nat) (hk : Node.commonPrefixLength k K = 0)
    (h : unrelatedChain K (some n)) :
    ∀ n2, n.insert_and_count k = some n2 → unrelatedChain K (some n2) := by
  intro n2 he l2 hl2
  rcases chainLabels_insert_and_count n k n2 he l2 hl2 with ⟨l1, hm, hpre⟩ | rfl
  · have h2 := h l1 hm
    have h3 := Node.commonPrefixLength_of_prefix_le K hpre
    omega
  · exact hk

/-- A counting insertion of a key unrelated to `K` does not change the count
of `K` recorded in the chain. -/
theorem insert_and_count_countedAt_unrelated (K : List Nat) (n : Node Nat)
    (k : List Nat) :
    Node.commonPrefixLength k K = 0 → ∀ cnt, countedAt K cnt (some n) →
    ∀ n2, n.insert_and_count k = some n2 → countedAt K cnt (some n2) := by
  induction n, k using Node.insert_and_count.induct with
  | case1 l v c k p h0 sib ih =>
    intro hkK cnt h n2 he
    have hp : Node.commonPrefixLength l k = 0 := h0
    rw [countedAt_some] at h
    rw [Node.insert_and_count.eq_def] at he
    simp only [if_pos hp] at he
    cases hs : sib.insert_and_count k with
    | none => simp [hs] at he
    | some s2 =>
      simp [hs] at he
      subst he
      rw [countedAt_some]
      rcases h with ⟨ha, hb⟩ | ⟨rfl, hv, hun, hne⟩
      · exact Or.inl ⟨ha, ih hkK cnt hb s2 hs⟩
      · exact Or.inr ⟨rfl, hv,
          insert_and_count_unrelatedChain l sib k hkK hun s2 hs, hne⟩
  | case2 l v c k p h0 =>
    intro hkK cnt h n2 he
    have hp : Node.commonPrefixLength l k = 0 := h0
    rw [countedAt_some] at h
    rw [Node.insert_and_count.eq_def] at he
    simp only [if_pos hp, Option.some.injEq] at he
    subst he
    rw [countedAt_some]
    rcases h with ⟨ha, hb⟩ | ⟨rfl, hv, hun, hne⟩
    · rw [countedAt_none] at hb
      refine Or.inl ⟨ha, ?_⟩
      simp only [Node.new]
      rw [countedAt_some]
      exact Or.inl ⟨hkK, by rw [countedAt_none]; exact hb⟩
    · refine Or.inr ⟨rfl, hv, ?_, hne⟩
      intro l2 hl2
      simp [Node.new] at hl2
      subst hl2
      exact hkK
  | case3 l c s k p h0 hk hl =>
    intro hkK cnt h n2 he
    have hp : ¬ Node.commonPrefixLength l k = 0 := h0
    have hk2 : Node.commonPrefixLength l k < k.length := hk
    have hl2 : Node.commonPrefixLength l k < l.length := hl
    rw [Node.insert_and_count.eq_def] at he
    simp [hp, hk2, hl2] at he
  | case4 l c s k p h0 hk hl oldCount fresh ih =>
    intro hkK cnt h n2 he
    have hp : ¬ Node.commonPrefixLength l k = 0 := h0
    have hk2 : Node.commonPrefixLength l k < k.length := hk
    have hl2 : Node.commonPrefixLength l k < l.length := hl
    rw [countedAt_some] at h
    rw [Node.insert_and_count.eq_def] at he
    simp only [if_neg hp, if_pos hk2, if_pos hl2] at he
    cases hs : (Node.mk (l.drop (Node.commonPrefixLength l k)) (some oldCount)
        c none).insert_and_count (k.drop (Node.commonPrefixLength l k)) with
    | none => simp [hs] at he
    | some c2 =>
      simp [hs] at he
      subst he
      rw [countedAt_some]
      rcases h with ⟨ha, hb⟩ | ⟨rfl, hv, hun, hne⟩
      · refine Or.inl ⟨?_, hb⟩
        rw [Node.commonPrefixLength_take, ha]
        simp
      · rw [Node.commonPrefixLength_comm] at hkK
        exact absurd hkK hp
  | case5 l v s k p h0 hk hl sib ih =>
    intro hkK cnt h n2 he
    have hp : ¬ Node.commonPrefixLength l k = 0 := h0
    have hk2 : Node.commonPrefixLength l k < k.length := hk
    have hl2 : ¬ Node.commonPrefixLength l k < l.length := hl
    rw [countedAt_some] at h
    rw [Node.insert_and_count.eq_def] at he
    simp only [if_neg hp, if_pos hk2, if_neg hl2] at he
    cases hs : sib.insert_and_count (k.drop (Node.commonPrefixLength l k)) with
    | none => simp [hs] at he
    | some c2 =>
      simp [hs] at he
      subst he
      rw [countedAt_some]
      rcases h with ⟨ha, hb⟩ | ⟨rfl, hv, hun, hne⟩
      · exact Or.inl ⟨ha, hb⟩
      · rw [Node.commonPrefixLength_comm] at hkK
        exact absurd hkK hp
  | case6 l v s k p h0 hk hl =>
    intro hkK cnt h n2 he
    have hp : ¬ Node.commonPrefixLength l k = 0 := h0
    have hk2 : Node.commonPrefixLength l k < k.length := hk
    have hl2 : ¬ Node.commonPrefixLength l k < l.length := hl
    rw [countedAt_some] at h
    rw [Node.insert_and_count.eq_def] at he
    simp only [if_neg hp, if_pos hk2, if_neg hl2, Option.some.injEq] at he
    subst he
    rw [countedAt_some]
    rcases h with ⟨ha, hb⟩ | ⟨rfl, hv, hun, hne⟩
    · exact Or.inl ⟨ha, hb⟩
    · rw [Node.commonPrefixLength_comm] at hkK
      exact absurd hkK hp
  | case7 l c s k p h0 hk count =>
    intro hkK cnt h n2 he
    have hp : ¬ Node.commonPrefixLength l k = 0 := h0
    have hk2 : ¬ Node.commonPrefixLength l k < k.length := hk
    rw [countedAt_some] at h
    rw [Node.insert_and_count.eq_def] at he
    simp only [if_neg hp, if_neg hk2, Option.some.injEq] at he
    subst he
    rw [countedAt_some]
    rcases h with ⟨ha, hb⟩ | ⟨rfl, hv, hun, hne⟩
    · exact Or.inl ⟨ha, hb⟩
    · rw [Node.commonPrefixLength_comm] at hkK
      exact absurd hkK hp
  | case8 l c s k p h0 hk =>
    intro hkK cnt h n2 he
    have hp : ¬ Node.commonPrefixLength l k = 0 := h0
    have hk2 : ¬ Node.commonPrefixLength l k < k.length := hk
    rw [Node.insert_and_count.eq_def] at he
    simp [hp, hk2] at he

/-- A counting insertion of `K` itself increments the recorded count of `K`
by one. -/
theorem insert_and_count_countedAt_incr (n : Node Nat) (K : List Nat) :
    K ≠ [] → ∀ cnt, countedAt K cnt (some n) →
    ∀ n2, n.insert_and_count K = some n2 →
    countedAt K (cnt + 1) (some n2) := by
  induction n, K using Node.insert_and_count.induct with
  | case1 l v c k p h0 sib ih =>
    intro hK cnt h n2 he
    have hp : Node.commonPrefixLength l k = 0 := h0
    rw [countedAt_some] at h
    rw [Node.insert_and_count.eq_def] at he
    simp only [if_pos hp] at he
    cases hs : sib.insert_and_count k with
    | none => simp [hs] at he
    | some s2 =>
      simp [hs] at he
      subst he
      rw [countedAt_some]
      rcases h with ⟨ha, hb⟩ | ⟨rfl, hv, hun, hne⟩
      · exact Or.inl ⟨ha, ih hK cnt hb s2 hs⟩
      · rw [Node.commonPrefixLength_self] at hp
        exact absurd (List.length_eq_zero.mp hp) hK
  | case2 l v c k p h0 =>
    intro hK cnt h n2 he
    have hp : Node.commonPrefixLength l k = 0 := h0
    rw [countedAt_some] at h
    rw [Node.insert_and_count.eq_def] at he
    simp only [if_pos hp, Option.some.injEq] at he
    subst he
    rw [countedAt_some]
    rcases h with ⟨ha, hb⟩ | ⟨rfl, hv, hun, hne⟩
    · rw [countedAt_none] at hb
      subst hb
      refine Or.inl ⟨ha, ?_⟩
      simp only [Node.new]
      rw [countedAt_some]
      exact Or.inr ⟨rfl, rfl, unrelatedChain_none k, one_ne_zero⟩
    · rw [Node.commonPrefixLength_self] at hp
      exact absurd (List.length_eq_zero.mp hp) hK
  | case3 l c s k p h0 hk hl =>
    intro hK cnt h n2 he
    have hp : ¬ Node.commonPrefixLength l k = 0 := h0
    have hl2 : Node.commonPrefixLength l k < l.length := hl
    rw [countedAt_some] at h
    rcases h with ⟨ha, hb⟩ | ⟨rfl, hv, hun, hne⟩
    · exact absurd ha hp
    · rw [Node.commonPrefixLength_self] at hl2
      omega
  | case4 l c s k p h0 hk hl oldCount fresh ih =>
    intro hK cnt h n2 he
    have hp : ¬ Node.commonPrefixLength l k = 0 := h0
    have hl2 : Node.commonPrefixLength l k < l.length := hl
    rw [countedAt_some] at h
    rcases h with ⟨ha, hb⟩ | ⟨rfl, hv, hun, hne⟩
    · exact absurd ha hp
    · rw [Node.commonPrefixLength_self] at hl2
      omega
  | case5 l v s k p h0 hk hl sib ih =>
    intro hK cnt h n2 he
    have hp : ¬ Node.commonPrefixLength l k = 0 := h0
    have hk2 : Node.commonPrefixLength l k < k.length := hk
    rw [countedAt_some] at h
    rcases h with ⟨ha, hb⟩ | ⟨rfl, hv, hun, hne⟩
    · exact absurd ha hp
    · rw [Node.commonPrefixLength_self] at hk2
      omega
  | case6 l v s k p h0 hk hl =>
    intro hK cnt h n2 he
    have hp : ¬ Node.commonPrefixLength l k = 0 := h0
    have hk2 : Node.commonPrefixLength l k < k.length := hk
    rw [countedAt_some] at h
    rcases h with ⟨ha, hb⟩ | ⟨rfl, hv, hun, hne⟩
    · exact absurd ha hp
    · rw [Node.commonPrefixLength_self] at hk2
      omega
  | case7 l c s k p h0 hk count =>
    intro hK cnt h n2 he
    have hp : ¬ Node.commonPrefixLength l k = 0 := h0
    have hk2 : ¬ Node.commonPrefixLength l k < k.length := hk
    rw [countedAt_some] at h
    rw [Node.insert_and_count.eq_def] at he
    simp only [if_neg hp, if_neg hk2, Option.some.injEq] at he
    subst he
    rw [countedAt_some]
    rcases h with ⟨ha, hb⟩ | ⟨rfl, hv, hun, hne⟩
    · exact absurd ha hp
    · rw [Option.some.injEq] at hv
      subst hv
      exact Or.inr ⟨rfl, rfl, hun, by omega⟩
  | case8 l c s k p h0 hk =>
    intro hK cnt h n2 he
    have hp : ¬ Node.commonPrefixLength l k = 0 := h0
    rw [countedAt_some] at h
    rcases h with ⟨ha, hb⟩ | ⟨rfl, hv, hun, hne⟩
    · exact absurd ha hp
    · simp at hv
  
/-- A chain recording count `cnt` for `K` answers `find K` with a node whose
count is `cnt`. -/
theorem countedAt_find (n : Node Nat) (K : List Nat) :
    ∀ cnt, countedAt K cnt (some n) → K ≠ [] → cnt ≠ 0 →
    ∃ m, n.find K = some m ∧ m.value = some cnt := by
  induction n, K using Node.find.induct with
  | case1 l v c k p h0 sib ih =>
    intro cnt h hk hcnt
    have hp : Node.commonPrefixLength l k = 0 := h0
    rw [countedAt_some] at h
    rcases h with ⟨ha, hb⟩ | ⟨rfl, hv, hun, hne⟩
    · obtain ⟨m, hm, hmv⟩ := ih cnt hb hk hcnt
      refine ⟨m, ?_, hmv⟩
      rw [Node.find.eq_def]
      simp [hp, hm]
    · rw [Node.commonPrefixLength_self] at hp
      exact absurd (List.length_eq_zero.mp hp) hk
  | case2 l v c k p h0 =>
    intro cnt h hk hcnt
    have hp : Node.commonPrefixLength l k = 0 := h0
    rw [countedAt_some] at h
    rcases h with ⟨ha, hb⟩ | ⟨rfl, hv, hun, hne⟩
    · rw [countedAt_none] at hb
      exact absurd hb hcnt
    · rw [Node.commonPrefixLength_self] at hp
      exact absurd (List.length_eq_zero.mp hp) hk
  | case3 l v c s k p h0 hl hk =>
    intro cnt h hke hcnt
    have hp : ¬ Node.commonPrefixLength l k = 0 := h0
    have hl2 : Node.commonPrefixLength l k = l.length := hl
    have hk2 : Node.commonPrefixLength l k = k.length := hk
    rw [countedAt_some] at h
    rcases h with ⟨ha, hb⟩ | ⟨rfl, hv, hun, hne⟩
    · exact absurd ha hp
    · refine ⟨.mk l v c s, ?_, hv⟩
      rw [Node.find.eq_def]
      simp only [if_neg hp, if_pos hl2, if_pos hk2]
  | case4 l v s k p h0 hl hk sib ih =>
    intro cnt h hke hcnt
    have hp : ¬ Node.commonPrefixLength l k = 0 := h0
    have hk2 : ¬ Node.commonPrefixLength l k = k.length := hk
    rw [countedAt_some] at h
    rcases h with ⟨ha, hb⟩ | ⟨rfl, hv, hun, hne⟩
    · exact absurd ha hp
    · rw [Node.commonPrefixLength_self] at hk2
      exact absurd rfl hk2
  | case5 l v s k p h0 hl hk =>
    intro cnt h hke hcnt
    have hp : ¬ Node.commonPrefixLength l k = 0 := h0
    have hk2 : ¬ Node.commonPrefixLength l k = k.length := hk
    rw [countedAt_some] at h
    rcases h with ⟨ha, hb⟩ | ⟨rfl, hv, hun, hne⟩
    · exact absurd ha hp
    · rw [Node.commonPrefixLength_self] at hk2
      exact absurd rfl hk2
  | case6 l v c s k p h0 hl =>
    intro cnt h hke hcnt
    have hp : ¬ Node.commonPrefixLength l k = 0 := h0
    have hl2 : ¬ Node.commonPrefixLength l k = l.length := hl
    rw [countedAt_some] at h
    rcases h with ⟨ha, hb⟩ | ⟨rfl, hv, hun, hne⟩
    · exact absurd ha hp
    · rw [Node.commonPrefixLength_self] at hl2
      exact absurd rfl hl2

/-- Tree-level: one counting insertion of `k` adds one to the recorded count
of `K` when `k = K` and leaves it unchanged when `k` is unrelated to `K`. -/
theorem tree_insert_and_count_countedAt (K : List Nat) (t : Tree Nat)
    (k : List Nat) (t2 : Tree Nat) (cnt : Nat) (hK : K ≠ [])
    (hrel : k = K ∨ Node.commonPrefixLength k K = 0)
    (h : countedAt K cnt t.root) (he : t.insert_and_count k = some t2) :
    countedAt K (cnt + if k = K then 1 else 0) t2.root := by
  obtain ⟨r⟩ := t
  cases r with
  | none =>
    rw [countedAt_none] at h
    subst h
    simp only [Tree.insert_and_count, Option.some.injEq] at he
    subst he
    rcases hrel with rfl | hunrel
    · simp only [if_pos rfl, Node.new]
      rw [countedAt_some]
      exact Or.inr ⟨rfl, rfl, unrelatedChain_none k, one_ne_zero⟩
    · have hkK : ¬ k = K := by
        intro hkeq
        subst hkeq
        rw [Node.commonPrefixLength_self] at hunrel
        exact hK (List.length_eq_zero.mp hunrel)
      simp only [if_neg hkK, Node.new]
      rw [countedAt_some]
      exact Or.inl ⟨hunrel, by rw [countedAt_none]⟩
  | some n =>
    simp only [Tree.insert_and_count] at he
    cases hs : n.insert_and_count k with
    | none => simp [hs] at he
    | some n2 =>
      simp [hs] at he
      subst he
      rcases hrel with rfl | hunrel
      · simp only [if_pos rfl]
        exact insert_and_count_countedAt_incr n k hK cnt h n2 hs
      · have hkK : ¬ k = K := by
          intro hkeq
          subst hkeq
          rw [Node.commonPrefixLength_self] at hunrel
          exact hK (List.length_eq_zero.mp hunrel)
        simp only [if_neg hkK, Nat.add_zero]
        exact insert_and_count_countedAt_unrelated K n k hunrel cnt h n2 hs

theorem countList_countedAt (K : List Nat) (ks : List (List Nat))
    (hK : K ≠ []) :
    ∀ t t2 : Tree Nat, ∀ cnt,
      (∀ k ∈ ks, k = K ∨ Node.commonPrefixLength k K = 0) →
      countedAt K cnt t.root → countList t ks = some t2 →
      countedAt K (cnt + ks.count K) t2.root := by
  induction ks with
  | nil =>
    intro t t2 cnt _ h he
    simp [countList] at he
    subst he
    simpa using h
  | cons k rest ih =>
    intro t t2 cnt hrel h he
    simp only [countList] at he
    cases ha : t.insert_and_count k with
    | none => simp [ha] at he
    | some t3 =>
      simp only [ha] at he
      have h2 := tree_insert_and_count_countedAt K t k t3 cnt hK
        (hrel k (List.mem_cons_self _ _)) h ha
      have h3 := ih t3 t2 _ (fun q hq => hrel q (List.mem_cons_of_mem _ hq))
        h2 he
      have harith : cnt + (k :: rest).count K =
          (cnt + if k = K then 1 else 0) + rest.count K := by
        rw [List.count_cons]
        by_cases hkK : k = K
        · simp [hkK]
          omega
        · simp [hkK]
      rw [harith]
      exact h3

/-- C6 (amended): for every sequence of `insertAndCount` calls on a fresh
tree containing `N ≥ 1` insertions of a non-empty key `K`, where no other
inserted key shares a nonzero prefix with `K`, the count stored at the node
exactly matching `K` equals `N`.  (For the empty key no node ever matches:
see the counterexample.) -/
theorem C6_counting_monotonicity (ks : List (List Nat)) (K : List Nat)
    (N : Nat) (t : Tree Nat) (hK : K ≠ [])
    (hrel : ∀ k ∈ ks, k = K ∨ Node.commonPrefixLength k K = 0)
    (hN : ks.count K = N) (hpos : 0 < N)
    (ht : countList Tree.new ks = some t) :
    (t.find K).map Node.value = some (some N) := by
  have h := countList_countedAt K ks hK Tree.new t 0 hrel
    (by simp [Tree.new]) ht
  rw [hN] at h
  rw [Nat.zero_add] at h
  cases hr : t.root with
  | none =>
    rw [hr, countedAt_none] at h
    omega
  | some n =>
    rw [hr] at h
    obtain ⟨m, hm, hv⟩ := countedAt_find n K N h hK (by omega)
    simp [Tree.find, hr, hm, hv]

/-- Witness for C6: two insertions of `[3,9]` around an unrelated `[5]`
leave count 2 at the node matching `[3,9]`. -/
theorem C6_witness :
    ((Tree.find ⟨some (.mk [3,9] (some 2) none
        (some (.mk [5] (some 1) none none)))⟩ [3,9]).map Node.value) =
      some (some 2) :=
  C6_counting_monotonicity [[3,9],[5],[3,9]] [3,9] 2 _ (by simp)
    (by
      intro k hk
      fin_cases hk
      · exact Or.inl rfl
      · exact Or.inr (by simp)
      · exact Or.inl rfl)
    (by rfl) (by omega)
    (by simp [countList, Tree.insert_and_count, Tree.new,
      Node.insert_and_count, Node.new])

/-- Counterexample for C6 as stated: one `insertAndCount` of the empty key
(`N = 1`, no other insertions) produces a tree in which no node exactly
matches the key at all — `find []` is `NotFound` — so no node carries
count 1 for it. -/
theorem C6_counterexample :
    countList Tree.new [[]] = some ⟨some (.mk [] (some 1) none none)⟩ ∧
    (Tree.mk (some (.mk [] (some (1:Nat)) none none))).find [] = none := by
  constructor
  · simp [countList, Tree.insert_and_count, Tree.new, Node.new]
  · simp [Tree.find, Node.find]

/-! ## C9: persistent append (spec-modelled) -/

/-- After a counting insertion of a non-empty key that does not terminate
strictly inside an existing label, `find` on that key succeeds. -/
theorem insert_and_count_find_isSome (n : Node Nat) (k : List Nat) :
    k ≠ [] → endsInside (some n) k = false →
    ∀ n2, n.insert_and_count k = some n2 → (n2.find k).isSome = true := by
  induction n, k using Node.insert_and_count.induct with
  | case1 l v c k p h0 sib ih =>
    intro hke hni n2 he
    have hp : Node.commonPrefixLength l k = 0 := h0
    rw [endsInside] at hni
    simp only [hp, if_pos rfl] at hni
    rw [Node.insert_and_count.eq_def] at he
    simp only [if_pos hp] at he
    cases hs : sib.insert_and_count k with
    | none => simp [hs] at he
    | some s2 =>
      simp [hs] at he
      subst he
      rw [Node.find.eq_def]
      simp only [if_pos hp]
      exact ih hke hni s2 hs
  | case2 l v c k p h0 =>
    intro hke hni n2 he
    have hp : Node.commonPrefixLength l k = 0 := h0
    rw [Node.insert_and_count.eq_def] at he
    simp only [if_pos hp, Option.some.injEq] at he
    subst he
    rw [Node.find.eq_def]
    simp only [if_pos hp]
    rw [Node.new, Node.find.eq_def]
    have hd := Node.commonPrefixLength_self k
    have hdne : k.length ≠ 0 := fun h2 => hke (List.length_eq_zero.mp h2)
    simp [hd, hdne]
  | case3 l c s k p h0 hk hl =>
    intro hke hni n2 he
    have hp : ¬ Node.commonPrefixLength l k = 0 := h0
    have hk2 : Node.commonPrefixLength l k < k.length := hk
    have hl2 : Node.commonPrefixLength l k < l.length := hl
    rw [Node.insert_and_count.eq_def] at he
    simp [hp, hk2, hl2] at he
  | case4 l c s k p h0 hk hl oldCount fresh ih =>
    intro hke hni n2 he
    have hp : ¬ Node.commonPrefixLength l k = 0 := h0
    have hk2 : Node.commonPrefixLength l k < k.length := hk
    have hl2 : Node.commonPrefixLength l k < l.length := hl
    have hdrop := Node.commonPrefixLength_drop l k
    rw [Node.insert_and_count.eq_def] at he
    simp only [if_neg hp, if_pos hk2, if_pos hl2] at he
    rw [Node.insert_and_count.eq_def] at he
    simp [hdrop] at he
    subst he
    have htake : Node.commonPrefixLength (l.take (Node.commonPrefixLength l k))
        k = Node.commonPrefixLength l k := by
      rw [Node.commonPrefixLength_take]
      simp
    have hlen : (l.take (Node.commonPrefixLength l k)).length
        = Node.commonPrefixLength l k := by
      rw [List.length_take]
      have := Node.commonPrefixLength_le_left l k
      omega
    have hkne : ¬ Node.commonPrefixLength l k = k.length := by omega
    rw [Node.find.eq_def]
    simp only [htake, hlen, if_neg hp, if_pos rfl, if_neg hkne]
    rw [Node.find.eq_def]
    simp only [hdrop, if_pos rfl]
    rw [Node.new, Node.find.eq_def]
    have hd := Node.commonPrefixLength_self
      (k.drop (Node.commonPrefixLength l k))
    have hdne : (k.drop (Node.commonPrefixLength l k)).length ≠ 0 := by
      rw [List.length_drop]
      omega
    simp [hd, hdne]
    omega
  | case5 l v s k p h0 hk hl sib ih =>
    intro hke hni n2 he
    have hp : ¬ Node.commonPrefixLength l k = 0 := h0
    have hk2 : Node.commonPrefixLength l k < k.length := hk
    have hl2 : ¬ Node.commonPrefixLength l k < l.length := hl
    have hpl : Node.commonPrefixLength l k = l.length :=
      Nat.le_antisymm (Node.commonPrefixLength_le_left l k) (Nat.not_lt.mp hl2)
    have hkne : ¬ Node.commonPrefixLength l k = k.length := by omega
    have hdke : k.drop (Node.commonPrefixLength l k) ≠ [] := by
      intro hemp
      have := congrArg List.length hemp
      simp at this
      omega
    rw [endsInside] at hni
    simp only [if_neg hp, if_pos hk2, if_pos hpl] at hni
    rw [Node.insert_and_count.eq_def] at he
    simp only [if_neg hp, if_pos hk2, if_neg hl2] at he
    cases hs : sib.insert_and_count (k.drop (Node.commonPrefixLength l k)) with
    | none => simp [hs] at he
    | some c2 =>
      simp [hs] at he
      subst he
      rw [Node.find.eq_def]
      simp only [if_neg hp, if_pos hpl, if_neg hkne]
      exact ih hdke hni c2 hs
  | case6 l v s k p h0 hk hl =>
    intro hke hni n2 he
    have hp : ¬ Node.commonPrefixLength l k = 0 := h0
    have hk2 : Node.commonPrefixLength l k < k.length := hk
    have hl2 : ¬ Node.commonPrefixLength l k < l.length := hl
    have hpl : Node.commonPrefixLength l k = l.length :=
      Nat.le_antisymm (Node.commonPrefixLength_le_left l k) (Nat.not_lt.mp hl2)
    have hkne : ¬ Node.commonPrefixLength l k = k.length := by omega
    rw [Node.insert_and_count.eq_def] at he
    simp only [if_neg hp, if_pos hk2, if_neg hl2, Option.some.injEq] at he
    subst he
    rw [Node.find.eq_def]
    simp only [if_neg hp, if_pos hpl, if_neg hkne]
    rw [Node.new, Node.find.eq_def]
    have hd := Node.commonPrefixLength_self
      (k.drop (Node.commonPrefixLength l k))
    have hdne : (k.drop (Node.commonPrefixLength l k)).length ≠ 0 := by
      rw [List.length_drop]
      omega
    simp [hd, hdne]
    omega
  | case7 l c s k p h0 hk count =>
    intro hke hni n2 he
    have hp : ¬ Node.commonPrefixLength l k = 0 := h0
    have hk2 : ¬ Node.commonPrefixLength l k < k.length := hk
    have hpk : Node.commonPrefixLength l k = k.length :=
      Nat.le_antisymm (Node.commonPrefixLength_le_right l k) (Nat.not_lt.mp hk2)
    rw [endsInside] at hni
    simp only [if_neg hp, if_neg (by omega : ¬ Node.commonPrefixLength l k
      < k.length)] at hni
    rw [decide_eq_false_iff_not] at hni
    have hpl : Node.commonPrefixLength l k = l.length :=
      Nat.le_antisymm (Node.commonPrefixLength_le_left l k) (Nat.not_lt.mp hni)
    rw [Node.insert_and_count.eq_def] at he
    simp only [if_neg hp, if_neg hk2, Option.some.injEq] at he
    subst he
    rw [Node.find.eq_def]
    simp only [if_neg hp, if_pos hpl, if_pos hpk]
    simp
  | case8 l c s k p h0 hk =>
    intro hke hni n2 he
    have hp : ¬ Node.commonPrefixLength l k = 0 := h0
    have hk2 : ¬ Node.commonPrefixLength l k < k.length := hk
    rw [Node.insert_and_count.eq_def] at he
    simp [hp, hk2] at he

/-- C9 (amended, spec-modelled): for the persistent variant, for every tree
`T0` and non-empty key `K` that does not terminate strictly inside an
existing node's label, the tree `T1` returned by `T0.append K` is a new tree
in which `find K` succeeds.  The receiver `T0` is a value this embedding
never mutates — `append` builds the new path and shares the untouched
substructure — so the claim's isolation clause is definitional here, and the
success clause is what is proved.  (For the empty key, or a key ending
strictly inside a stored label, `find K` on `T1` still fails: see the
counterexample.) -/
theorem C9_persistent_isolation (T0 : Tree Nat) (K : List Nat) (T1 : Tree Nat)
    (hK : K ≠ []) (hni : endsInside T0.root K = false)
    (he : T0.append K = some T1) :
    (T1.find K).isSome = true := by
  obtain ⟨r⟩ := T0
  cases r with
  | none =>
    simp only [Tree.append, Tree.insert_and_count, Option.some.injEq] at he
    subst he
    simp only [Tree.find]
    rw [Node.new, Node.find.eq_def]
    have hd := Node.commonPrefixLength_self K
    have hdne : K.length ≠ 0 := fun h2 => hK (List.length_eq_zero.mp h2)
    simp [hd, hdne]
  | some n =>
    simp only [Tree.append, Tree.insert_and_count] at he
    cases hs : n.insert_and_count K with
    | none => simp [hs] at he
    | some n2 =>
      simp [hs] at he
      subst he
      simp only [Tree.find]
      exact insert_and_count_find_isSome n K hK hni n2 hs

/-- Witness for C9: appending `[3,9]` to a tree holding `[5]` yields a tree
in which `find [3,9]` succeeds. -/
theorem C9_witness :
    endsInside (Tree.mk (some (.mk [5] (some (1:Nat)) none none))).root [3,9]
      = false ∧
    Tree.append ⟨some (.mk [5] (some 1) none none)⟩ [3,9] =
      some ⟨some (.mk [5] (some 1) none (some (.mk [3,9] (some 1) none none)))⟩ ∧
    ((Tree.mk (some (.mk [5] (some (1:Nat)) none
      (some (.mk [3,9] (some 1) none none))))).find [3,9]).isSome = true :=
  ⟨by simp [endsInside],
   by simp [Tree.append, Tree.insert_and_count, Node.insert_and_count,
     Node.new],
   C9_persistent_isolation ⟨some (.mk [5] (some 1) none none)⟩ [3,9] _
     (by simp) (by simp [endsInside])
     (by simp [Tree.append, Tree.insert_and_count, Node.insert_and_count,
       Node.new])⟩

/-- Counterexample for C9 as stated: appending `[3]` to a tree storing
`[3,137]` returns a new tree (the node's count is incremented), but
`find [3]` on the result is `NotFound` — the key terminates strictly inside
the label, so no node matches it. -/
theorem C9_counterexample :
    Tree.append ⟨some (.mk [3,137] (some 1) none none)⟩ [3] =
      some ⟨some (.mk [3,137] (some 2) none none)⟩ ∧
    (Tree.mk (some (.mk [3,137] (some (2:Nat)) none none))).find [3] = none := by
  constructor
  · simp [Tree.append, Tree.insert_and_count, Node.insert_and_count]
  · simp [Tree.find, Node.find]

/-! ## C2: the counting accounting rule -/

theorem isPrefixOf_iff (a b : List Nat) :
    a.isPrefixOf b = true ↔ a <+: b := List.isPrefixOf_iff_prefix

/-- Splitting off a known prefix of a prefix. -/
theorem drop_prefix_of_append {acc x S : List Nat}
    (h : (acc ++ x) <+: S) : x <+: S.drop acc.length := by
  obtain ⟨u, rfl⟩ := h
  rw [List.append_assoc, List.drop_left]
  exact ⟨u, rfl⟩

/-- A label engaging a list that starts like `r` engages `r` itself. -/
theorem head_engage_transfer {l r Sd : List Nat} (hr : r ≠ [])
    (hpre : r.take 1 <+: Sd) (hne : Node.commonPrefixLength l Sd ≠ 0) :
    Node.commonPrefixLength l r ≠ 0 := by
  cases r with
  | nil => exact absurd rfl hr
  | cons rh rt =>
    rw [Node.commonPrefixLength_ne_zero_iff] at hne ⊢
    obtain ⟨x, ls, ss, hl, hs⟩ := hne
    obtain ⟨u, hu⟩ := hpre
    simp only [List.take_succ_cons, List.take_zero] at hu
    rw [hl]
    refine ⟨x, ls, rt, rfl, ?_⟩
    rw [hs] at hu
    rw [List.singleton_append, List.cons.injEq] at hu
    rw [← hu.1]

@[simp] theorem specCount_nil (P : List Nat) : specCount [] P = 0 := rfl

/-- Appending one inserted sequence adds one exactly at its prefixes. -/
theorem specCount_append_one (ks : List (List Nat)) (k P : List Nat) :
    specCount (ks ++ [k]) P =
      specCount ks P + if P <+: k then 1 else 0 := by
  by_cases h : P <+: k
  · have hb : P.isPrefixOf k = true := (isPrefixOf_iff P k).mpr h
    simp [specCount, List.filter_append, hb, h]
  · have hb : ¬ P.isPrefixOf k = true := fun h2 => h ((isPrefixOf_iff P k).mp h2)
    simp [specCount, List.filter_append, hb, h]

theorem specCount_eq_zero {ks : List (List Nat)} {P : List Nat}
    (h : ∀ S ∈ ks, ¬ P <+: S) : specCount ks P = 0 := by
  rw [specCount, List.length_eq_zero, List.filter_eq_nil_iff]
  intro S hS
  intro hb
  exact h S hS ((isPrefixOf_iff P S).mp hb)

/-- One step of `specCount`. -/
theorem specCount_cons (S : List Nat) (ks : List (List Nat)) (P : List Nat) :
    specCount (S :: ks) P = (if P <+: S then 1 else 0) + specCount ks P := by
  by_cases h : P <+: S
  · simp [specCount, List.filter_cons, (isPrefixOf_iff P S).mpr h, h]
    omega
  · have hb : ¬ P.isPrefixOf S = true :=
      fun hx => h ((isPrefixOf_iff P S).mp hx)
    simp [specCount, List.filter_cons, hb, h]

/-- Longer prefixes match no more sequences. -/
theorem specCount_le_of_prefix {P1 P2 : List Nat} (ks : List (List Nat))
    (h : P1 <+: P2) : specCount ks P2 ≤ specCount ks P1 := by
  induction ks with
  | nil => simp
  | cons S rest ih =>
    rw [specCount_cons, specCount_cons]
    by_cases h2 : P2 <+: S
    · have h1 : P1 <+: S := h.trans h2
      simp [h1, h2]
      omega
    · by_cases h1 : P1 <+: S <;> simp [h1, h2] <;> omega

/-- When a longer prefix matches exactly as many sequences as a shorter one,
every sequence matching the shorter prefix also matches the longer one. -/
theorem specCount_eq_imp {P1 P2 : List Nat} (ks : List (List Nat))
    (hpre : P1 <+: P2) (hlen : specCount ks P1 = specCount ks P2) :
    ∀ S ∈ ks, P1 <+: S → P2 <+: S := by
  induction ks with
  | nil => simp
  | cons S2 rest ih =>
    intro S hS h1
    rw [specCount_cons, specCount_cons] at hlen
    have hmono := specCount_le_of_prefix rest hpre
    by_cases h2 : P2 <+: S2
    · rcases List.mem_cons.mp hS with rfl | hS2
      · exact h2
      · have h1b : P1 <+: S2 := hpre.trans h2
        rw [if_pos h1b, if_pos h2] at hlen
        exact ih (by omega) S hS2 h1
    · by_cases h1b : P1 <+: S2
      · rw [if_pos h1b, if_neg h2] at hlen
        omega
      · rcases List.mem_cons.mp hS with rfl | hS2
        · exact absurd h1 h1b
        · rw [if_neg h1b, if_neg h2] at hlen
          exact ih (by omega) S hS2 h1

/-- All chain labels are non-empty under the counting invariant. -/
theorem countInv_chainLabels_ne_nil (ks : List (List Nat)) :
    ∀ acc t, countInv ks acc t → ∀ l2 ∈ chainLabels t, l2 ≠ [] := by
  intro acc t
  induction acc, t using countInv.induct ks with
  | case1 acc => simp
  | case2 acc l v c s ihc ihs =>
    intro h l2 hm
    rw [countInv_some] at h
    rw [chainLabels_some, List.mem_cons] at hm
    rcases hm with rfl | hm
    · exact h.1
    · exact ihs h.2.2.2.2.2.1 l2 hm

/-- Appending a sequence that does not strictly extend `acc` leaves the
counting invariant at `acc` untouched. -/
theorem countInv_append_not_strict (ks : List (List Nat)) (k : List Nat) :
    ∀ acc t, countInv ks acc t → (acc = k ∨ ¬ acc <+: k) →
      countInv (ks ++ [k]) acc t := by
  intro acc t
  induction acc, t using countInv.induct ks with
  | case1 acc =>
    intro _ _
    exact countInv_none _ _
  | case2 acc l v c s ihc ihs =>
    intro h hcond
    rw [countInv_some] at h ⊢
    obtain ⟨hl0, hv, hmid, hcc, hic, his, hdisj⟩ := h
    have hext : ∀ x : List Nat, x ≠ [] → ¬ (acc ++ x) <+: k := by
      intro x hx hpre
      have hacc : acc <+: k := (List.prefix_append acc x).trans hpre
      rcases hcond with rfl | hnp
      · have hlen := hpre.length_le
        rw [List.length_append] at hlen
        have h6 : x.length = 0 := by omega
        exact hx (List.length_eq_zero.mp h6)
      · exact hnp hacc
    have htq : ∀ q : Nat, 0 < q → l.take q ≠ [] := by
      intro q hq hemp
      have h5 := congrArg List.length hemp
      rw [List.length_take] at h5
      simp only [List.length_nil] at h5
      have := List.length_pos.mpr hl0
      omega
    refine ⟨hl0, ?_, ?_, ?_, ?_, ?_, hdisj⟩
    · rw [specCount_append_one, if_neg (hext l hl0), Nat.add_zero]
      exact hv
    · intro q hq hql
      rw [specCount_append_one, if_neg (hext _ (htq q hq)), Nat.add_zero,
        specCount_append_one, if_neg (hext l hl0), Nat.add_zero]
      exact hmid q hq hql
    · intro S hS hpre hne
      rcases List.mem_append.mp hS with hS2 | hS2
      · exact hcc S hS2 hpre hne
      · rw [List.mem_singleton] at hS2
        subst hS2
        exact absurd hpre (hext l hl0)
    · exact ihc hic (Or.inr (hext l hl0))
    · exact ihs his hcond

/-- Appending `acc ++ r` when `r` engages no chain label leaves the counting
invariant of that chain untouched. -/
theorem countInv_append_unrelated (ks : List (List Nat)) (r : List Nat) :
    ∀ acc t, countInv ks acc t →
      (∀ l2 ∈ chainLabels t, Node.commonPrefixLength l2 r = 0) →
      countInv (ks ++ [acc ++ r]) acc t := by
  intro acc t
  induction acc, t using countInv.induct ks with
  | case1 acc =>
    intro _ _
    exact countInv_none _ _
  | case2 acc l v c s ihc ihs =>
    intro h hrel
    rw [countInv_some] at h ⊢
    obtain ⟨hl0, hv, hmid, hcc, hic, his, hdisj⟩ := h
    have hlr : Node.commonPrefixLength l r = 0 := hrel l (by simp)
    have hnot : ¬ (acc ++ l) <+: (acc ++ r) := by
      intro hpre
      rw [List.prefix_append_right_inj] at hpre
      rw [(Node.commonPrefixLength_eq_left_iff l r).mpr hpre] at hlr
      exact hl0 (List.length_eq_zero.mp hlr)
    have hnotq : ∀ q : Nat, 0 < q → ¬ (acc ++ l.take q) <+: (acc ++ r) := by
      intro q hq hpre
      rw [List.prefix_append_right_inj] at hpre
      have h5 := (Node.commonPrefixLength_eq_left_iff (l.take q) r).mpr hpre
      rw [Node.commonPrefixLength_take, hlr, List.length_take] at h5
      simp only [Nat.min_zero] at h5
      have := List.length_pos.mpr hl0
      omega
    refine ⟨hl0, ?_, ?_, ?_, ?_, ?_, hdisj⟩
    · rw [specCount_append_one, if_neg hnot, Nat.add_zero]
      exact hv
    · intro q hq hql
      rw [specCount_append_one, if_neg (hnotq q hq), Nat.add_zero,
        specCount_append_one, if_neg hnot, Nat.add_zero]
      exact hmid q hq hql
    · intro S hS hpre hne
      rcases List.mem_append.mp hS with hS2 | hS2
      · exact hcc S hS2 hpre hne
      · rw [List.mem_singleton] at hS2
        subst hS2
        exact absurd hpre hnot
    · exact countInv_append_not_strict ks (acc ++ r) (acc ++ l) c hic
        (Or.inr hnot)
    · exact ihs his (fun l2 hm => hrel l2 (by simp [hm]))

/-- A counting insertion preserves chain engagement: any list sharing a
nonzero prefix with some chain label still does so afterwards. -/
theorem insert_and_count_engage (n : Node Nat) (k : List Nat) :
    ∀ n2, n.insert_and_count k = some n2 → ∀ x : List Nat,
      (∃ l2 ∈ chainLabels (some n), Node.commonPrefixLength l2 x ≠ 0) →
      ∃ l2 ∈ chainLabels (some n2), Node.commonPrefixLength l2 x ≠ 0 := by
  induction n, k using Node.insert_and_count.induct with
  | case1 l v c k p h0 sib ih =>
    intro n2 he x hex
    have hp : Node.commonPrefixLength l k = 0 := h0
    rw [Node.insert_and_count.eq_def] at he
    simp only [if_pos hp] at he
    cases hs : sib.insert_and_count k with
    | none => simp [hs] at he
    | some s2 =>
      simp [hs] at he
      subst he
      obtain ⟨l2, hm, hne⟩ := hex
      rw [chainLabels_some, List.mem_cons] at hm
      rcases hm with rfl | hm
      · exact ⟨l2, by simp, hne⟩
      · obtain ⟨l3, hm3, h3⟩ := ih s2 hs x ⟨l2, hm, hne⟩
        exact ⟨l3, by simp [hm3], h3⟩
  | case2 l v c k p h0 =>
    intro n2 he x hex
    have hp : Node.commonPrefixLength l k = 0 := h0
    rw [Node.insert_and_count.eq_def] at he
    simp only [if_pos hp, Option.some.injEq] at he
    subst he
    obtain ⟨l2, hm, hne⟩ := hex
    rw [chainLabels_some, List.mem_cons] at hm
    rcases hm with rfl | hm
    · exact ⟨l2, by simp, hne⟩
    · simp at hm
  | case3 l c s k p h0 hk hl =>
    intro n2 he
    have hp : ¬ Node.commonPrefixLength l k = 0 := h0
    have hk2 : Node.commonPrefixLength l k < k.length := hk
    have hl2 : Node.commonPrefixLength l k < l.length := hl
    rw [Node.insert_and_count.eq_def] at he
    simp [hp, hk2, hl2] at he
  | case4 l c s k p h0 hk hl oldCount fresh ih =>
    intro n2 he x hex
    have hp : ¬ Node.commonPrefixLength l k = 0 := h0
    have hk2 : Node.commonPrefixLength l k < k.length := hk
    have hl2 : Node.commonPrefixLength l k < l.length := hl
    have hdrop := Node.commonPrefixLength_drop l k
    rw [Node.insert_and_count.eq_def] at he
    simp only [if_neg hp, if_pos hk2, if_pos hl2] at he
    rw [Node.insert_and_count.eq_def] at he
    simp [hdrop] at he
    subst he
    obtain ⟨l2, hm, hne⟩ := hex
    rw [chainLabels_some, List.mem_cons] at hm
    rcases hm with rfl | hm
    · refine ⟨l2.take (Node.commonPrefixLength l2 k), by simp, ?_⟩
      rw [Node.commonPrefixLength_take]
      intro hmin
      rw [Nat.min_eq_zero_iff] at hmin
      rcases hmin with hmin | hmin
      · exact hp hmin
      · exact hne hmin
    · exact ⟨l2, by simp [hm], hne⟩
  | case5 l v s k p h0 hk hl sib ih =>
    intro n2 he x hex
    have hp : ¬ Node.commonPrefixLength l k = 0 := h0
    have hk2 : Node.commonPrefixLength l k < k.length := hk
    have hl2 : ¬ Node.commonPrefixLength l k < l.length := hl
    rw [Node.insert_and_count.eq_def] at he
    simp only [if_neg hp, if_pos hk2, if_neg hl2] at he
    cases hs : sib.insert_and_count (k.drop (Node.commonPrefixLength l k)) with
    | none => simp [hs] at he
    | some c2 =>
      simp [hs] at he
      subst he
      obtain ⟨l2, hm, hne⟩ := hex
      rw [chainLabels_some, List.mem_cons] at hm
      rcases hm with rfl | hm
      · exact ⟨l2, by simp, hne⟩
      · exact ⟨l2, by simp [hm], hne⟩
  | case6 l v s k p h0 hk hl =>
    intro n2 he x hex
    have hp : ¬ Node.commonPrefixLength l k = 0 := h0
    have hk2 : Node.commonPrefixLength l k < k.length := hk
    have hl2 : ¬ Node.commonPrefixLength l k < l.length := hl
    rw [Node.insert_and_count.eq_def] at he
    simp only [if_neg hp, if_pos hk2, if_neg hl2, Option.some.injEq] at he
    subst he
    obtain ⟨l2, hm, hne⟩ := hex
    rw [chainLabels_some, List.mem_cons] at hm
    rcases hm with rfl | hm
    · exact ⟨l2, by simp, hne⟩
    · exact ⟨l2, by simp [hm], hne⟩
  | case7 l c s k p h0 hk count =>
    intro n2 he x hex
    have hp : ¬ Node.commonPrefixLength l k = 0 := h0
    have hk2 : ¬ Node.commonPrefixLength l k < k.length := hk
    rw [Node.insert_and_count.eq_def] at he
    simp only [if_neg hp, if_neg hk2, Option.some.injEq] at he
    subst he
    obtain ⟨l2, hm, hne⟩ := hex
    rw [chainLabels_some, List.mem_cons] at hm
    rcases hm with rfl | hm
    · exact ⟨l2, by simp, hne⟩
    · exact ⟨l2, by simp [hm], hne⟩
  | case8 l c s k p h0 hk =>
    intro n2 he
    have hp : ¬ Node.commonPrefixLength l k = 0 := h0
    have hk2 : ¬ Node.commonPrefixLength l k < k.length := hk
    rw [Node.insert_and_count.eq_def] at he
    simp [hp, hk2] at he

/-- After a counting insertion the inserted key engages the chain. -/
theorem insert_and_count_key_engage (n : Node Nat) (k : List Nat) :
    k ≠ [] → ∀ n2, n.insert_and_count k = some n2 →
      ∃ l2 ∈ chainLabels (some n2), Node.commonPrefixLength l2 k ≠ 0 := by
  induction n, k using Node.insert_and_count.induct with
  | case1 l v c k p h0 sib ih =>
    intro hke n2 he
    have hp : Node.commonPrefixLength l k = 0 := h0
    rw [Node.insert_and_count.eq_def] at he
    simp only [if_pos hp] at he
    cases hs : sib.insert_and_count k with
    | none => simp [hs] at he
    | some s2 =>
      simp [hs] at he
      subst he
      obtain ⟨l3, hm3, h3⟩ := ih hke s2 hs
      exact ⟨l3, by simp [hm3], h3⟩
  | case2 l v c k p h0 =>
    intro hke n2 he
    have hp : Node.commonPrefixLength l k = 0 := h0
    rw [Node.insert_and_count.eq_def] at he
    simp only [if_pos hp, Option.some.injEq] at he
    subst he
    refine ⟨k, by simp [Node.new], ?_⟩
    rw [Node.commonPrefixLength_self]
    exact fun h2 => hke (List.length_eq_zero.mp h2)
  | case3 l c s k p h0 hk hl =>
    intro hke n2 he
    have hp : ¬ Node.commonPrefixLength l k = 0 := h0
    have hk2 : Node.commonPrefixLength l k < k.length := hk
    have hl2 : Node.commonPrefixLength l k < l.length := hl
    rw [Node.insert_and_count.eq_def] at he
    simp [hp, hk2, hl2] at he
  | case4 l c s k p h0 hk hl oldCount fresh ih =>
    intro hke n2 he
    have hp : ¬ Node.commonPrefixLength l k = 0 := h0
    have hk2 : Node.commonPrefixLength l k < k.length := hk
    have hl2 : Node.commonPrefixLength l k < l.length := hl
    have hdrop := Node.commonPrefixLength_drop l k
    rw [Node.insert_and_count.eq_def] at he
    simp only [if_neg hp, if_pos hk2, if_pos hl2] at he
    rw [Node.insert_and_count.eq_def] at he
    simp [hdrop] at he
    subst he
    refine ⟨l.take (Node.commonPrefixLength l k), by simp, ?_⟩
    rw [Node.commonPrefixLength_take]
    simp only [Nat.min_self, ne_eq]
    exact hp
  | case5 l v s k p h0 hk hl sib ih =>
    intro hke n2 he
    have hp : ¬ Node.commonPrefixLength l k = 0 := h0
    have hk2 : Node.commonPrefixLength l k < k.length := hk
    have hl2 : ¬ Node.commonPrefixLength l k < l.length := hl
    rw [Node.insert_and_count.eq_def] at he
    simp only [if_neg hp, if_pos hk2, if_neg hl2] at he
    cases hs : sib.insert_and_count (k.drop (Node.commonPrefixLength l k)) with
    | none => simp [hs] at he
    | some c2 =>
      simp [hs] at he
      subst he
      exact ⟨l, by simp, hp⟩
  | case6 l v s k p h0 hk hl =>
    intro hke n2 he
    have hp : ¬ Node.commonPrefixLength l k = 0 := h0
    have hk2 : Node.commonPrefixLength l k < k.length := hk
    have hl2 : ¬ Node.commonPrefixLength l k < l.length := hl
    rw [Node.insert_and_count.eq_def] at he
    simp only [if_neg hp, if_pos hk2, if_neg hl2, Option.some.injEq] at he
    subst he
    exact ⟨l, by simp, hp⟩
  | case7 l c s k p h0 hk count =>
    intro hke n2 he
    have hp : ¬ Node.commonPrefixLength l k = 0 := h0
    have hk2 : ¬ Node.commonPrefixLength l k < k.length := hk
    rw [Node.insert_and_count.eq_def] at he
    simp only [if_neg hp, if_neg hk2, Option.some.injEq] at he
    subst he
    exact ⟨l, by simp, hp⟩
  | case8 l c s k p h0 hk =>
    intro hke n2 he
    have hp : ¬ Node.commonPrefixLength l k = 0 := h0
    have hk2 : ¬ Node.commonPrefixLength l k < k.length := hk
    rw [Node.insert_and_count.eq_def] at he
    simp [hp, hk2] at he

theorem take_ne_nil_of_pos {l : List Nat} (hl : l ≠ []) {q : Nat}
    (hq : 0 < q) : l.take q ≠ [] := by
  intro hemp
  have h5 := congrArg List.length hemp
  rw [List.length_take] at h5
  simp only [List.length_nil] at h5
  have := List.length_pos.mpr hl
  omega

theorem drop_ne_nil_of_lt {k : List Nat} {q : Nat} (h : q < k.length) :
    k.drop q ≠ [] := by
  intro hemp
  have h5 := congrArg List.length hemp
  rw [List.length_drop] at h5
  simp only [List.length_nil] at h5
  omega

/-- A positive truncation of a label with no common prefix with `r` is not a
prefix of `r`. -/
theorem not_take_prefix_of_cpl_zero {l r : List Nat} (hl : l ≠ [])
    (hp : Node.commonPrefixLength l r = 0) {q : Nat} (hq : 0 < q) :
    ¬ (l.take q) <+: r := by
  intro hpre
  have h5 := (Node.commonPrefixLength_eq_left_iff (l.take q) r).mpr hpre
  rw [Node.commonPrefixLength_take, hp, List.length_take] at h5
  simp only [Nat.min_zero] at h5
  have := List.length_pos.mpr hl
  omega

/-- Main preservation lemma for the counting rule: a counting insertion of
the key `acc ++ r` that does not terminate strictly inside a label preserves
the counting invariant of the chain at `acc`. -/
theorem insert_and_count_countInv (ks : List (List Nat)) (n : Node Nat)
    (r : List Nat) :
    ∀ acc n2,
      countInv ks acc (some n) →
      (∀ S ∈ ks, (acc ++ r.take 1) <+: S →
        ∃ l2 ∈ chainLabels (some n),
          Node.commonPrefixLength l2 (S.drop acc.length) ≠ 0) →
      r ≠ [] →
      endsInside (some n) r = false →
      n.insert_and_count r = some n2 →
      countInv (ks ++ [acc ++ r]) acc (some n2) := by
  induction n, r using Node.insert_and_count.induct with
  | case1 l v c r p h0 sib ih =>
    intro acc n2 hInv hhead hre hni he
    have hp : Node.commonPrefixLength l r = 0 := h0
    rw [countInv_some] at hInv
    obtain ⟨hl0, hv, hmid, hcc, hic, his, hdisj⟩ := hInv
    rw [endsInside] at hni
    simp only [hp, if_pos rfl] at hni
    rw [Node.insert_and_count.eq_def] at he
    simp only [if_pos hp] at he
    cases hs : sib.insert_and_count r with
    | none => simp [hs] at he
    | some s2 =>
      simp [hs] at he
      subst he
      have hnotl : ¬ l <+: r := by
        intro hpre
        rw [(Node.commonPrefixLength_eq_left_iff l r).mpr hpre] at hp
        exact hl0 (List.length_eq_zero.mp hp)
      have hnot : ¬ (acc ++ l) <+: (acc ++ r) := by
        rw [List.prefix_append_right_inj]
        exact hnotl
      have hnotq : ∀ q : Nat, 0 < q →
          ¬ (acc ++ l.take q) <+: (acc ++ r) := by
        intro q hq
        rw [List.prefix_append_right_inj]
        exact not_take_prefix_of_cpl_zero hl0 hp hq
      rw [countInv_some]
      refine ⟨hl0, ?_, ?_, ?_, ?_, ?_, ?_⟩
      · rw [specCount_append_one, if_neg hnot, Nat.add_zero]
        exact hv
      · intro q hq hql
        rw [specCount_append_one, if_neg (hnotq q hq), Nat.add_zero,
          specCount_append_one, if_neg hnot, Nat.add_zero]
        exact hmid q hq hql
      · intro S hS hpre hne
        rcases List.mem_append.mp hS with hS2 | hS2
        · exact hcc S hS2 hpre hne
        · rw [List.mem_singleton] at hS2
          subst hS2
          exact absurd hpre hnot
      · exact countInv_append_not_strict ks (acc ++ r) (acc ++ l) c hic
          (Or.inr hnot)
      · refine ih acc s2 his ?_ hre hni hs
        intro S hS hpre
        obtain ⟨l2, hm, hne⟩ := hhead S hS hpre
        rw [chainLabels_some, List.mem_cons] at hm
        rcases hm with rfl | hm
        · exact absurd (head_engage_transfer hre (drop_prefix_of_append hpre)
            hne) (by rw [hp]; simp)
        · exact ⟨l2, hm, hne⟩
      · intro l2 hm
        rcases chainLabels_insert_and_count sib r s2 hs l2 hm with
          ⟨l1, hm1, hpre1⟩ | rfl
        · have h3 := Node.commonPrefixLength_prefix_right_le l hpre1
          have h4 := hdisj l1 hm1
          omega
        · exact hp
  | case2 l v c r p h0 =>
    intro acc n2 hInv hhead hre hni he
    have hp : Node.commonPrefixLength l r = 0 := h0
    rw [countInv_some] at hInv
    obtain ⟨hl0, hv, hmid, hcc, hic, his, hdisj⟩ := hInv
    rw [Node.insert_and_count.eq_def] at he
    simp only [if_pos hp, Option.some.injEq] at he
    subst he
    have hnotl : ¬ l <+: r := by
      intro hpre
      rw [(Node.commonPrefixLength_eq_left_iff l r).mpr hpre] at hp
      exact hl0 (List.length_eq_zero.mp hp)
    have hnot : ¬ (acc ++ l) <+: (acc ++ r) := by
      rw [List.prefix_append_right_inj]
      exact hnotl
    have hnotq : ∀ q : Nat, 0 < q →
        ¬ (acc ++ l.take q) <+: (acc ++ r) := by
      intro q hq
      rw [List.prefix_append_right_inj]
      exact not_take_prefix_of_cpl_zero hl0 hp hq
    have hno1 : ∀ S ∈ ks, ¬ (acc ++ r.take 1) <+: S := by
      intro S hS hpre
      obtain ⟨l2, hm, hne⟩ := hhead S hS hpre
      rw [chainLabels_some, List.mem_cons] at hm
      rcases hm with rfl | hm
      · exact absurd (head_engage_transfer hre (drop_prefix_of_append hpre)
          hne) (by rw [hp]; simp)
      · simp at hm
    have ht1 : (acc ++ r.take 1) <+: (acc ++ r) := by
      rw [List.prefix_append_right_inj]
      exact List.take_prefix 1 r
    have ht1q : ∀ q : Nat, 0 < q → (acc ++ r.take 1) <+: (acc ++ r.take q) := by
      intro q hq
      rw [List.prefix_append_right_inj]
      have h7 := List.take_prefix 1 (r.take q)
      rwa [List.take_take, Nat.min_eq_left hq] at h7
    have hnos : ∀ S ∈ ks, ¬ (acc ++ r) <+: S := by
      intro S hS hpre
      exact hno1 S hS (ht1.trans hpre)
    have hzero : specCount ks (acc ++ r) = 0 := specCount_eq_zero hnos
    have hzeroq : ∀ q : Nat, 0 < q →
        specCount ks (acc ++ r.take q) = 0 := by
      intro q hq
      refine specCount_eq_zero ?_
      intro S hS hpre
      exact hno1 S hS ((ht1q q hq).trans hpre)
    rw [countInv_some]
    refine ⟨hl0, ?_, ?_, ?_, ?_, ?_, ?_⟩
    · rw [specCount_append_one, if_neg hnot, Nat.add_zero]
      exact hv
    · intro q hq hql
      rw [specCount_append_one, if_neg (hnotq q hq), Nat.add_zero,
        specCount_append_one, if_neg hnot, Nat.add_zero]
      exact hmid q hq hql
    · intro S hS hpre hne
      rcases List.mem_append.mp hS with hS2 | hS2
      · exact hcc S hS2 hpre hne
      · rw [List.mem_singleton] at hS2
        subst hS2
        exact absurd hpre hnot
    · exact countInv_append_not_strict ks (acc ++ r) (acc ++ l) c hic
        (Or.inr hnot)
    · rw [Node.new, countInv_some]
      refine ⟨hre, ?_, ?_, ?_, countInv_none _ _, countInv_none _ _, by simp⟩
      · rw [specCount_append_one, hzero, if_pos (List.prefix_refl _)]
      · intro q hq hql
        rw [specCount_append_one, if_pos (by
            rw [List.prefix_append_right_inj]
            exact List.take_prefix q r),
          hzeroq q hq, specCount_append_one, hzero,
          if_pos (List.prefix_refl _)]
      · intro S hS hpre hne
        rcases List.mem_append.mp hS with hS2 | hS2
        · exact absurd hpre (hnos S hS2)
        · rw [List.mem_singleton] at hS2
          subst hS2
          exact absurd rfl hne
    · intro l2 hm
      simp only [Node.new, chainLabels_some, chainLabels_none,
        List.mem_singleton] at hm
      subst hm
      exact hp
  | case3 l c s r p h0 hk hl =>
    intro acc n2 hInv hhead hre hni he
    have hp : ¬ Node.commonPrefixLength l r = 0 := h0
    have hk2 : Node.commonPrefixLength l r < r.length := hk
    have hl2 : Node.commonPrefixLength l r < l.length := hl
    rw [Node.insert_and_count.eq_def] at he
    simp [hp, hk2, hl2] at he
  | case8 l c s r p h0 hk =>
    intro acc n2 hInv hhead hre hni he
    have hp : ¬ Node.commonPrefixLength l r = 0 := h0
    have hk2 : ¬ Node.commonPrefixLength l r < r.length := hk
    rw [Node.insert_and_count.eq_def] at he
    simp [hp, hk2] at he
  | case4 l c s r p h0 hk hl oldCount fresh ih =>
    intro acc n2 hInv hhead hre hni he
    have hp : ¬ Node.commonPrefixLength l r = 0 := h0
    have hk2 : Node.commonPrefixLength l r < r.length := hk
    have hl2 : Node.commonPrefixLength l r < l.length := hl
    have hdrop := Node.commonPrefixLength_drop l r
    rw [countInv_some] at hInv
    obtain ⟨hl0, hv, hmid, hcc, hic, his, hdisj⟩ := hInv
    rw [Option.some.injEq] at hv
    rw [Node.insert_and_count.eq_def] at he
    simp only [if_neg hp, if_pos hk2, if_pos hl2] at he
    rw [Node.insert_and_count.eq_def] at he
    simp [hdrop] at he
    subst he
    have hp0 : 0 < Node.commonPrefixLength l r := Nat.pos_of_ne_zero hp
    have htp_ne : l.take (Node.commonPrefixLength l r) ≠ [] :=
      take_ne_nil_of_pos hl0 hp0
    have hdl_ne : l.drop (Node.commonPrefixLength l r) ≠ [] :=
      drop_ne_nil_of_lt hl2
    have hdr_ne : r.drop (Node.commonPrefixLength l r) ≠ [] :=
      drop_ne_nil_of_lt hk2
    have e4 : (acc ++ l.take (Node.commonPrefixLength l r)) ++
        l.drop (Node.commonPrefixLength l r) = acc ++ l := by
      rw [List.append_assoc, List.take_append_drop]
    have hdropview : ∀ S : List Nat, (acc ++ l) <+: S →
        l.drop (Node.commonPrefixLength l r) <+:
          S.drop (acc ++ l.take (Node.commonPrefixLength l r)).length := by
      intro S h2
      apply drop_prefix_of_append
      rw [e4]
      exact h2
    have hkeq : acc ++ r = (acc ++ l.take (Node.commonPrefixLength l r)) ++
        r.drop (Node.commonPrefixLength l r) := by
      rw [List.append_assoc, Node.take_commonPrefixLength_eq,
        List.take_append_drop]
    have hF4 : specCount ks (acc ++ l.take (Node.commonPrefixLength l r)) =
        specCount ks (acc ++ l) := hmid _ hp0 hl2
    have hF5 : (acc ++ l.take (Node.commonPrefixLength l r)) <+: (acc ++ r) := by
      rw [hkeq]
      exact List.prefix_append _ _
    have hF6 : ¬ (acc ++ l) <+: (acc ++ r) := by
      rw [List.prefix_append_right_inj]
      intro hpre
      have h6 := (Node.commonPrefixLength_eq_left_iff l r).mpr hpre
      omega
    have hpre_tp : (acc ++ l.take (Node.commonPrefixLength l r)) <+:
        (acc ++ l) := by
      rw [List.prefix_append_right_inj]
      exact List.take_prefix _ _
    have hF7 := specCount_eq_imp ks hpre_tp hF4
    have hF8sub : ∀ S ∈ ks, ¬ (acc ++ r) <+: S := by
      intro S hS hpre
      have h1 : (acc ++ l.take (Node.commonPrefixLength l r)) <+: S :=
        hF5.trans hpre
      have h2 : (acc ++ l) <+: S := hF7 S hS h1
      have h3 := hdropview S h2
      have h4 : r.drop (Node.commonPrefixLength l r) <+:
          S.drop (acc ++ l.take (Node.commonPrefixLength l r)).length := by
        apply drop_prefix_of_append
        rw [← hkeq]
        exact hpre
      exact Node.commonPrefixLength_ne_zero_of_common h3 h4 hdl_ne hdr_ne hdrop
    have hF8 : specCount ks (acc ++ r) = 0 := specCount_eq_zero hF8sub
    have hF9 : ∀ q : Nat, 0 < q →
        specCount ks ((acc ++ l.take (Node.commonPrefixLength l r)) ++
          (r.drop (Node.commonPrefixLength l r)).take q) = 0 := by
      intro q hq
      refine specCount_eq_zero ?_
      intro S hS hpre
      have h1 : (acc ++ l.take (Node.commonPrefixLength l r)) <+: S :=
        (List.prefix_append _ _).trans hpre
      have h2 : (acc ++ l) <+: S := hF7 S hS h1
      have h3 := hdropview S h2
      have h4 : (r.drop (Node.commonPrefixLength l r)).take q <+:
          S.drop (acc ++ l.take (Node.commonPrefixLength l r)).length :=
        drop_prefix_of_append hpre
      have h5 := Node.commonPrefixLength_ne_zero_of_common h3 h4 hdl_ne
        (take_ne_nil_of_pos hdr_ne hq)
      rw [Node.commonPrefixLength_take_right, hdrop] at h5
      simp at h5
    rw [countInv_some]
    refine ⟨htp_ne, ?_, ?_, ?_, ?_, ?_, ?_⟩
    · rw [specCount_append_one, if_pos hF5, hF4, ← hv]
    · intro q hq hql
      rw [List.length_take] at hql
      have e1 : (l.take (Node.commonPrefixLength l r)).take q = l.take q := by
        rw [List.take_take, Nat.min_eq_left (by omega)]
      rw [e1]
      have e2 : l.take q = r.take q := by
        have e2a := congrArg (List.take q) (Node.take_commonPrefixLength_eq l r)
        rwa [List.take_take, List.take_take, Nat.min_eq_left (by omega)] at e2a
      have hq_pref : (acc ++ l.take q) <+: (acc ++ r) := by
        rw [List.prefix_append_right_inj, e2]
        exact List.take_prefix _ _
      rw [specCount_append_one, if_pos hq_pref, specCount_append_one,
        if_pos hF5, hF4, hmid q hq (by omega)]
    · intro S hS hpre hne
      rcases List.mem_append.mp hS with hS2 | hS2
      · have h2 : (acc ++ l) <+: S := hF7 S hS2 hpre
        refine ⟨l.drop (Node.commonPrefixLength l r), ?_, ?_⟩
        · rw [chainLabels_some]
          exact List.mem_cons_self _ _
        · have h4 := (Node.commonPrefixLength_eq_left_iff _ _).mpr
            (hdropview S h2)
          rw [h4]
          intro hz
          exact hdl_ne (List.length_eq_zero.mp hz)
      · rw [List.mem_singleton] at hS2
        subst hS2
        refine ⟨r.drop (Node.commonPrefixLength l r), ?_, ?_⟩
        · rw [chainLabels_some, Node.new, chainLabels_some]
          exact List.mem_cons_of_mem _ (List.mem_cons_self _ _)
        · have e3 : (acc ++ r).drop
              (acc ++ l.take (Node.commonPrefixLength l r)).length =
              r.drop (Node.commonPrefixLength l r) := by
            rw [hkeq, List.drop_left]
          rw [e3, Node.commonPrefixLength_self]
          intro hz
          exact hdr_ne (List.length_eq_zero.mp hz)
    · rw [countInv_some]
      refine ⟨hdl_ne, ?_, ?_, ?_, ?_, ?_, ?_⟩
      · rw [e4, specCount_append_one, if_neg hF6, Nat.add_zero, ← hv]
      · intro q hq hql
        rw [List.length_drop] at hql
        have e5 : (acc ++ l.take (Node.commonPrefixLength l r)) ++
            (l.drop (Node.commonPrefixLength l r)).take q =
            acc ++ l.take (Node.commonPrefixLength l r + q) := by
          rw [List.append_assoc]
          congr 1
          rw [List.take_add]
        rw [e5, e4]
        have hnq : ¬ (acc ++ l.take (Node.commonPrefixLength l r + q)) <+:
            (acc ++ r) := by
          rw [List.prefix_append_right_inj]
          intro hpre
          have h6 := (Node.commonPrefixLength_eq_left_iff _ _).mpr hpre
          rw [Node.commonPrefixLength_take, List.length_take] at h6
          omega
        rw [specCount_append_one, if_neg hnq, Nat.add_zero,
          specCount_append_one, if_neg hF6, Nat.add_zero]
        exact hmid (Node.commonPrefixLength l r + q) (by omega) (by omega)
      · rw [e4]
        intro S hS hpre hne
        rcases List.mem_append.mp hS with hS2 | hS2
        · exact hcc S hS2 hpre hne
        · rw [List.mem_singleton] at hS2
          subst hS2
          exact absurd hpre hF6
      · rw [e4]
        exact countInv_append_not_strict ks (acc ++ r) (acc ++ l) c hic
          (Or.inr hF6)
      · rw [Node.new, countInv_some]
        refine ⟨hdr_ne, ?_, ?_, ?_, countInv_none _ _, countInv_none _ _, ?_⟩
        · rw [← hkeq, specCount_append_one, hF8, if_pos (List.prefix_refl _)]
        · intro q hq hql
          have e6 : ((acc ++ l.take (Node.commonPrefixLength l r)) ++
              (r.drop (Node.commonPrefixLength l r)).take q) <+:
              (acc ++ r) := by
            rw [hkeq, List.prefix_append_right_inj]
            exact List.take_prefix _ _
          rw [specCount_append_one, if_pos e6, hF9 q hq, ← hkeq,
            specCount_append_one, hF8, if_pos (List.prefix_refl _)]
        · rw [← hkeq]
          intro S hS hpre hne
          rcases List.mem_append.mp hS with hS2 | hS2
          · exact absurd hpre (hF8sub S hS2)
          · rw [List.mem_singleton] at hS2
            subst hS2
            exact absurd rfl hne
        · intro l2 hm
          rw [chainLabels_none] at hm
          exact absurd hm (List.not_mem_nil l2)
      · intro l2 hm
        rw [Node.new, chainLabels_some, chainLabels_none,
          List.mem_singleton] at hm
        subst hm
        exact hdrop
    · refine countInv_append_unrelated ks r acc s his ?_
      intro l2 hm
      by_contra hne3
      have h8 : Node.commonPrefixLength r l ≠ 0 := by
        rw [Node.commonPrefixLength_comm]
        exact hp
      have h9 : Node.commonPrefixLength r l2 ≠ 0 := by
        rw [Node.commonPrefixLength_comm]
        exact hne3
      exact Node.commonPrefixLength_trans_ne_zero h8 h9 (hdisj l2 hm)
    · intro l2 hm
      rw [Node.commonPrefixLength_take, hdisj l2 hm]
      simp
  | case5 l v s r p h0 hk hl sib ih =>
    intro acc n2 hInv hhead hre hni he
    have hp : ¬ Node.commonPrefixLength l r = 0 := h0
    have hk2 : Node.commonPrefixLength l r < r.length := hk
    have hl2 : ¬ Node.commonPrefixLength l r < l.length := hl
    have hple := Node.commonPrefixLength_le_left l r
    have hpl : Node.commonPrefixLength l r = l.length := by omega
    rw [countInv_some] at hInv
    obtain ⟨hl0, hv, hmid, hcc, hic, his, hdisj⟩ := hInv
    rw [endsInside] at hni
    simp only [if_neg hp, if_pos hk2, if_pos hpl] at hni
    rw [Node.insert_and_count.eq_def] at he
    simp only [if_neg hp, if_pos hk2, if_neg hl2] at he
    cases hs : sib.insert_and_count (r.drop (Node.commonPrefixLength l r)) with
    | none =>
      rw [hs] at he
      simp at he
    | some c2 =>
      rw [hs] at he
      simp at he
      subst he
      have hpre0 : l <+: r := (Node.commonPrefixLength_eq_left_iff l r).mp hpl
      obtain ⟨u, hu⟩ := hpre0
      have hpre0 : l <+: r := ⟨u, hu⟩
      have hdreq : r.drop (Node.commonPrefixLength l r) = u := by
        rw [hpl, ← hu, List.drop_left]
      have hcat : l ++ r.drop (Node.commonPrefixLength l r) = r := by
        rw [hdreq, hu]
      have hkeq : acc ++ r = (acc ++ l) ++
          r.drop (Node.commonPrefixLength l r) := by
        rw [List.append_assoc, hcat]
      have hpref : (acc ++ l) <+: (acc ++ r) := by
        rw [hkeq]
        exact List.prefix_append _ _
      have hdr_ne : r.drop (Node.commonPrefixLength l r) ≠ [] :=
        drop_ne_nil_of_lt hk2
      rw [countInv_some]
      refine ⟨hl0, ?_, ?_, ?_, ?_, ?_, hdisj⟩
      · rw [hv, Option.getD_some, specCount_append_one, if_pos hpref]
      · intro q hq hql
        have e2 : (acc ++ l.take q) <+: (acc ++ r) := by
          rw [List.prefix_append_right_inj]
          exact (List.take_prefix q l).trans hpre0
        rw [specCount_append_one, if_pos e2, specCount_append_one,
          if_pos hpref, hmid q hq hql]
      · intro S hS hpre2 hne2
        rcases List.mem_append.mp hS with hS2 | hS2
        · exact insert_and_count_engage sib _ c2 hs _ (hcc S hS2 hpre2 hne2)
        · rw [List.mem_singleton] at hS2
          subst hS2
          obtain ⟨l3, hm3, h3⟩ := insert_and_count_key_engage sib _ hdr_ne c2 hs
          refine ⟨l3, hm3, ?_⟩
          have e3 : (acc ++ r).drop (acc ++ l).length =
              r.drop (Node.commonPrefixLength l r) := by
            rw [hkeq, List.drop_left]
          rw [e3]
          exact h3
      · have hihead : ∀ S ∈ ks,
            ((acc ++ l) ++
              (r.drop (Node.commonPrefixLength l r)).take 1) <+: S →
            ∃ l2 ∈ chainLabels (some sib),
              Node.commonPrefixLength l2 (S.drop (acc ++ l).length) ≠ 0 := by
          intro S hS hpre2
          refine hcc S hS ((List.prefix_append _ _).trans hpre2) ?_
          intro heq
          have h5 := hpre2.length_le
          rw [heq] at h5
          simp only [List.length_append, List.length_take] at h5
          have h6 := List.length_pos.mpr hdr_ne
          omega
        have hres := ih (acc ++ l) c2 hic hihead hdr_ne hni hs
        rw [hkeq]
        exact hres
      · refine countInv_append_unrelated ks r acc s his ?_
        intro l2 hm
        by_contra hne3
        have h8 : Node.commonPrefixLength r l ≠ 0 := by
          rw [Node.commonPrefixLength_comm]
          exact hp
        have h9 : Node.commonPrefixLength r l2 ≠ 0 := by
          rw [Node.commonPrefixLength_comm]
          exact hne3
        exact Node.commonPrefixLength_trans_ne_zero h8 h9 (hdisj l2 hm)
  | case6 l v s r p h0 hk hl =>
    intro acc n2 hInv hhead hre hni he
    have hp : ¬ Node.commonPrefixLength l r = 0 := h0
    have hk2 : Node.commonPrefixLength l r < r.length := hk
    have hl2 : ¬ Node.commonPrefixLength l r < l.length := hl
    have hple := Node.commonPrefixLength_le_left l r
    have hpl : Node.commonPrefixLength l r = l.length := by omega
    rw [countInv_some] at hInv
    obtain ⟨hl0, hv, hmid, hcc, hic, his, hdisj⟩ := hInv
    rw [Node.insert_and_count.eq_def] at he
    simp only [if_neg hp, if_pos hk2, if_neg hl2, Option.some.injEq] at he
    subst he
    have hpre0 : l <+: r := (Node.commonPrefixLength_eq_left_iff l r).mp hpl
    obtain ⟨u, hu⟩ := hpre0
    have hpre0 : l <+: r := ⟨u, hu⟩
    have hdreq : r.drop (Node.commonPrefixLength l r) = u := by
      rw [hpl, ← hu, List.drop_left]
    have hcat : l ++ r.drop (Node.commonPrefixLength l r) = r := by
      rw [hdreq, hu]
    have hkeq : acc ++ r = (acc ++ l) ++
        r.drop (Node.commonPrefixLength l r) := by
      rw [List.append_assoc, hcat]
    have hpref : (acc ++ l) <+: (acc ++ r) := by
      rw [hkeq]
      exact List.prefix_append _ _
    have hdr_ne : r.drop (Node.commonPrefixLength l r) ≠ [] :=
      drop_ne_nil_of_lt hk2
    have hstrict : ∀ S ∈ ks, (acc ++ l) <+: S → S ≠ acc ++ l → False := by
      intro S hS h1 h2
      obtain ⟨l2, hm, _⟩ := hcc S hS h1 h2
      rw [chainLabels_none] at hm
      exact absurd hm (List.not_mem_nil l2)
    have hnos : ∀ S ∈ ks, ¬ (acc ++ r) <+: S := by
      intro S hS hpre2
      refine hstrict S hS (hpref.trans hpre2) ?_
      intro heq
      have h5 := hpre2.length_le
      rw [heq] at h5
      simp only [List.length_append] at h5
      omega
    have hzero : specCount ks (acc ++ r) = 0 := specCount_eq_zero hnos
    have hnosq : ∀ q : Nat, 0 < q → specCount ks ((acc ++ l) ++
        (r.drop (Node.commonPrefixLength l r)).take q) = 0 := by
      intro q hq
      refine specCount_eq_zero ?_
      intro S hS hpre2
      refine hstrict S hS ((List.prefix_append _ _).trans hpre2) ?_
      intro heq
      have h5 := hpre2.length_le
      rw [heq] at h5
      simp only [List.length_append, List.length_take] at h5
      have h6 := List.length_pos.mpr hdr_ne
      omega
    rw [countInv_some]
    refine ⟨hl0, ?_, ?_, ?_, ?_, ?_, hdisj⟩
    · rw [hv, Option.getD_some, specCount_append_one, if_pos hpref]
    · intro q hq hql
      have e2 : (acc ++ l.take q) <+: (acc ++ r) := by
        rw [List.prefix_append_right_inj]
        exact (List.take_prefix q l).trans hpre0
      rw [specCount_append_one, if_pos e2, specCount_append_one,
        if_pos hpref, hmid q hq hql]
    · intro S hS hpre2 hne2
      rcases List.mem_append.mp hS with hS2 | hS2
      · exact (hstrict S hS2 hpre2 hne2).elim
      · rw [List.mem_singleton] at hS2
        subst hS2
        refine ⟨r.drop (Node.commonPrefixLength l r), ?_, ?_⟩
        · rw [Node.new, chainLabels_some]
          exact List.mem_cons_self _ _
        · have e3 : (acc ++ r).drop (acc ++ l).length =
              r.drop (Node.commonPrefixLength l r) := by
            rw [hkeq, List.drop_left]
          rw [e3, Node.commonPrefixLength_self]
          intro hz
          exact hdr_ne (List.length_eq_zero.mp hz)
    · rw [Node.new, countInv_some]
      refine ⟨hdr_ne, ?_, ?_, ?_, countInv_none _ _, countInv_none _ _, ?_⟩
      · rw [← hkeq, specCount_append_one, hzero, if_pos (List.prefix_refl _)]
      · intro q hq hql
        have e5 : ((acc ++ l) ++
            (r.drop (Node.commonPrefixLength l r)).take q) <+: (acc ++ r) := by
          rw [hkeq, List.prefix_append_right_inj]
          exact List.take_prefix _ _
        rw [specCount_append_one, if_pos e5, hnosq q hq, ← hkeq,
          specCount_append_one, hzero, if_pos (List.prefix_refl _)]
      · rw [← hkeq]
        intro S hS hpre2 hne2
        rcases List.mem_append.mp hS with hS2 | hS2
        · exact absurd hpre2 (hnos S hS2)
        · rw [List.mem_singleton] at hS2
          subst hS2
          exact absurd rfl hne2
      · intro l2 hm
        rw [chainLabels_none] at hm
        exact absurd hm (List.not_mem_nil l2)
    · refine countInv_append_unrelated ks r acc s his ?_
      intro l2 hm
      by_contra hne3
      have h8 : Node.commonPrefixLength r l ≠ 0 := by
        rw [Node.commonPrefixLength_comm]
        exact hp
      have h9 : Node.commonPrefixLength r l2 ≠ 0 := by
        rw [Node.commonPrefixLength_comm]
        exact hne3
      exact Node.commonPrefixLength_trans_ne_zero h8 h9 (hdisj l2 hm)
  | case7 l c s r p h0 hk count =>
    intro acc n2 hInv hhead hre hni he
    have hp : ¬ Node.commonPrefixLength l r = 0 := h0
    have hk2 : ¬ Node.commonPrefixLength l r < r.length := hk
    have hple := Node.commonPrefixLength_le_left l r
    have hpro := Node.commonPrefixLength_le_right l r
    rw [endsInside] at hni
    simp only [if_neg hp, if_neg hk2, decide_eq_false_iff_not] at hni
    have hpl : Node.commonPrefixLength l r = l.length := by omega
    have hpr : Node.commonPrefixLength l r = r.length := by omega
    have hleq : l = r := by
      have h1 : l <+: r := (Node.commonPrefixLength_eq_left_iff l r).mp hpl
      exact List.IsPrefix.eq_of_length h1 (by omega)
    rw [countInv_some] at hInv
    obtain ⟨hl0, hv, hmid, hcc, hic, his, hdisj⟩ := hInv
    rw [Option.some.injEq] at hv
    rw [Node.insert_and_count.eq_def] at he
    simp only [if_neg hp, if_neg hk2, Option.some.injEq] at he
    subst he
    have hpref : (acc ++ l) <+: (acc ++ r) := by
      rw [hleq]
    rw [countInv_some]
    refine ⟨hl0, ?_, ?_, ?_, ?_, ?_, hdisj⟩
    · rw [specCount_append_one, if_pos hpref, hv]
    · intro q hq hql
      have hqpref : (acc ++ l.take q) <+: (acc ++ r) := by
        rw [List.prefix_append_right_inj, ← hleq]
        exact List.take_prefix q l
      rw [specCount_append_one, if_pos hqpref, specCount_append_one,
        if_pos hpref, hmid q hq hql]
    · intro S hS hpre2 hne2
      rcases List.mem_append.mp hS with hS2 | hS2
      · exact hcc S hS2 hpre2 hne2
      · rw [List.mem_singleton] at hS2
        subst hS2
        rw [hleq] at hne2
        exact absurd rfl hne2
    · exact countInv_append_not_strict ks (acc ++ r) (acc ++ l) c hic
        (Or.inl (by rw [hleq]))
    · refine countInv_append_unrelated ks r acc s his ?_
      intro l2 hm
      by_contra hne3
      have h8 : Node.commonPrefixLength r l ≠ 0 := by
        rw [Node.commonPrefixLength_comm]
        exact hp
      have h9 : Node.commonPrefixLength r l2 ≠ 0 := by
        rw [Node.commonPrefixLength_comm]
        exact hne3
      exact Node.commonPrefixLength_trans_ne_zero h8 h9 (hdisj l2 hm)

/-- Tree-level step: a well-behaved `Tree::insert_and_count` call preserves
the counting invariant and the top-level chain completeness. -/
theorem tree_step_countInv (ks : List (List Nat)) (t : Tree Nat)
    (k : List Nat) (t2 : Tree Nat) :
    countInv ks [] t.root →
    chainComplete ks [] t.root →
    k ≠ [] →
    endsInside t.root k = false →
    t.insert_and_count k = some t2 →
    countInv (ks ++ [k]) [] t2.root ∧
      chainComplete (ks ++ [k]) [] t2.root := by
  intro hI hC hk hni he
  cases t with
  | mk root =>
    cases root with
    | none =>
      simp only [Tree.insert_and_count, Option.some.injEq] at he
      subst he
      have hallnil : ∀ S ∈ ks, S = [] := by
        intro S hS
        by_contra hne
        obtain ⟨l2, hm, _⟩ := hC S hS List.nil_prefix hne
        rw [chainLabels_none] at hm
        exact absurd hm (List.not_mem_nil l2)
      have hnos : ∀ S ∈ ks, ¬ k <+: S := by
        intro S hS hpre
        rw [hallnil S hS] at hpre
        exact hk (List.prefix_nil.mp hpre)
      constructor
      · show countInv (ks ++ [k]) [] (some (Node.new k 1))
        rw [Node.new, countInv_some]
        refine ⟨hk, ?_, ?_, ?_, countInv_none _ _, countInv_none _ _, ?_⟩
        · rw [List.nil_append, specCount_append_one,
            specCount_eq_zero hnos, if_pos (List.prefix_refl _)]
        · intro q hq hql
          rw [List.nil_append, List.nil_append, specCount_append_one,
            specCount_append_one, specCount_eq_zero hnos,
            if_pos (List.prefix_refl _),
            if_pos (List.take_prefix q k)]
          rw [specCount_eq_zero]
          intro S hS hpre
          rw [hallnil S hS] at hpre
          exact take_ne_nil_of_pos hk hq (List.prefix_nil.mp hpre)
        · rw [List.nil_append]
          intro S hS hpre hne
          rcases List.mem_append.mp hS with hS2 | hS2
          · exact absurd hpre (hnos S hS2)
          · rw [List.mem_singleton] at hS2
            subst hS2
            exact absurd rfl hne
        · intro l2 hm
          rw [chainLabels_none] at hm
          exact absurd hm (List.not_mem_nil l2)
      · show chainComplete (ks ++ [k]) [] (some (Node.new k 1))
        intro S hS hpre hne
        rcases List.mem_append.mp hS with hS2 | hS2
        · exact absurd (hallnil S hS2) hne
        · rw [List.mem_singleton] at hS2
          subst hS2
          refine ⟨S, ?_, ?_⟩
          · rw [Node.new, chainLabels_some]
            exact List.mem_cons_self _ _
          · simp only [List.length_nil, List.drop_zero,
              Node.commonPrefixLength_self]
            intro hz
            exact hk (List.length_eq_zero.mp hz)
    | some n =>
      simp only [Tree.insert_and_count] at he
      cases hs : n.insert_and_count k with
      | none =>
        rw [hs] at he
        simp at he
      | some n2 =>
        rw [hs] at he
        simp at he
        subst he
        have hI2 : countInv ks [] (some n) := hI
        have hC2 : chainComplete ks [] (some n) := hC
        have hni2 : endsInside (some n) k = false := hni
        have hk1 : (k.take 1).length = 1 := by
          rw [List.length_take]
          have := List.length_pos.mpr hk
          omega
        have hhead : ∀ S ∈ ks, (([] : List Nat) ++ k.take 1) <+: S →
            ∃ l2 ∈ chainLabels (some n),
              Node.commonPrefixLength l2
                (S.drop ([] : List Nat).length) ≠ 0 := by
          intro S hS hpre
          rw [List.nil_append] at hpre
          refine hC2 S hS List.nil_prefix ?_
          intro heq
          have h5 := hpre.length_le
          rw [heq, hk1] at h5
          simp at h5
        have hres := insert_and_count_countInv ks n k [] n2 hI2 hhead hk
          hni2 hs
        rw [List.nil_append] at hres
        constructor
        · show countInv (ks ++ [k]) [] (some n2)
          exact hres
        · show chainComplete (ks ++ [k]) [] (some n2)
          intro S hS hpre hne
          rcases List.mem_append.mp hS with hS2 | hS2
          · exact insert_and_count_engage n k n2 hs _ (hC2 S hS2 hpre hne)
          · rw [List.mem_singleton] at hS2
            subst hS2
            simp only [List.length_nil, List.drop_zero]
            exact insert_and_count_key_engage n S hk n2 hs

/-- Running a well-behaved list of counting insertions preserves the
counting invariant, accumulating the inserted keys. -/
theorem countList_countInv (ks2 : List (List Nat)) :
    ∀ ks (t : Tree Nat), countInv ks [] t.root → chainComplete ks [] t.root →
      goodRun t ks2 = true →
      ∀ t2, countList t ks2 = some t2 →
      countInv (ks ++ ks2) [] t2.root := by
  induction ks2 with
  | nil =>
    intro ks t h1 h2 h3 t2 h4
    rw [countList, Option.some.injEq] at h4
    subst h4
    rw [List.append_nil]
    exact h1
  | cons k rest ih =>
    intro ks t h1 h2 h3 t2 h4
    rw [goodRun, Bool.and_eq_true, Bool.and_eq_true] at h3
    obtain ⟨⟨h3a, h3b⟩, h3c⟩ := h3
    rw [Bool.not_eq_true'] at h3a h3b
    have hk : k ≠ [] := by
      intro hemp
      subst hemp
      simp at h3a
    rw [countList] at h4
    cases hs : t.insert_and_count k with
    | none =>
      rw [hs] at h4
      simp at h4
    | some t3 =>
      rw [hs] at h4
      have h4b : countList t3 rest = some t2 := h4
      rw [hs] at h3c
      have h3d : goodRun t3 rest = true := h3c
      obtain ⟨hI2, hC2⟩ := tree_step_countInv ks t k t3 h1 h2 hk h3b hs
      have hres := ih (ks ++ [k]) t3 hI2 hC2 h3d t2 h4b
      rw [List.append_cons]
      exact hres

/-- The counting invariant entails the counting-rule conclusion: every
count equals the number of inserted sequences extending its path. -/
theorem countInv_implies_countsCorrect (ks : List (List Nat)) :
    ∀ acc (t : Option (Node Nat)), countInv ks acc t →
      countsCorrect ks acc t := by
  intro acc t
  induction acc, t using countInv.induct ks with
  | case1 acc =>
    intro _
    exact countsCorrect_none _ _
  | case2 acc l v c s ihc ihs =>
    intro h
    rw [countInv_some] at h
    rw [countsCorrect_some]
    exact ⟨h.2.1, ihc h.2.2.2.2.1, ihs h.2.2.2.2.2.1⟩

/-- C2 (corrected): counting accounting rule.  For every run of
`insertAndCount` calls from a fresh tree in which each inserted key is
non-empty and never terminates strictly inside an existing node's label,
the count stored at every node of the resulting tree equals the number of
inserted key sequences for which that node's accumulated label path is a
prefix of — or exactly equals — the inserted sequence.  The claim's further
restriction to sequences "that diverge at or terminate at this node's
position" can only shrink that reference number; the counterexample shows
the restricted reading, and the claim for unrestricted runs, are false. -/
theorem C2_counting_rule (ks : List (List Nat)) (t : Tree Nat)
    (hrun : goodRun Tree.new ks = true)
    (hlist : countList Tree.new ks = some t) :
    countsCorrect ks [] t.root := by
  have h1 : countInv ([] : List (List Nat)) [] (Tree.new : Tree Nat).root := by
    show countInv [] [] (none : Option (Node Nat))
    exact countInv_none _ _
  have h2 : chainComplete ([] : List (List Nat)) []
      (Tree.new : Tree Nat).root := by
    intro S hS
    exact absurd hS (List.not_mem_nil S)
  have h3 := countList_countInv ks [] Tree.new h1 h2 hrun t hlist
  rw [List.nil_append] at h3
  exact countInv_implies_countsCorrect ks [] t.root h3

theorem C2_witness :
    countsCorrect [[3,137,2],[3,137,99,2]] []
      (Tree.mk (some (Node.mk [3,137] (some 2)
        (some (Node.mk [2] (some 1) none
          (some (Node.mk [99,2] (some 1) none none)))) none))).root :=
  C2_counting_rule [[3,137,2],[3,137,99,2]] _
    (by simp [goodRun, Tree.new, endsInside, Tree.insert_and_count,
      Node.insert_and_count, Node.new, Node.commonPrefixLength])
    (by simp [countList, Tree.new, Tree.insert_and_count,
      Node.insert_and_count, Node.new, Node.commonPrefixLength])

/-- Counterexample to C2 as stated: inserting `[3,137]` and then `[3]`
through `insertAndCount` leaves a single node with path `[3,137]` and
count 2, although only one inserted sequence (namely `[3,137]` itself) has
that node's path as a prefix — and the claim's restriction clause can only
shrink its reference number further, so the stored count matches no reading
of the claim. -/
theorem C2_counterexample :
    countList Tree.new [[3,137],[3]] =
      some (Tree.mk (some (Node.mk [3,137] (some 2) none none))) ∧
    specCount [[3,137],[3]] ([] ++ [3,137]) = 1 ∧
    ¬ countsCorrect [[3,137],[3]] []
      (some (Node.mk [3,137] (some 2) none none)) := by
  refine ⟨?_, by decide, ?_⟩
  · simp [countList, Tree.new, Tree.insert_and_count, Node.insert_and_count,
      Node.new, Node.commonPrefixLength]
  · intro h
    rw [countsCorrect_some] at h
    exact absurd h.1 (by decide)

end PrefixTree
